import Mathlib

/-! rsh-checker: the DNS checker of `pkg/dnscheck`

A shallow embedding of `pkg/dnscheck/dnscheck.go` and a verification of its
check pass, retry orchestration and report.

Modelling conventions.

* Go's `map[string]struct{}` is a `Finset String`; `map[string]map[string]struct{}`
  is a `Finmap` from strings to `Finset String`.  `len` is `Finset.card`.
* Where the code ranges over a map, the order is taken as a parameter
  `order : Finset String → List String` (Go leaves it unspecified).
* `uint` values are natural numbers reduced modulo `2 ^ 64`; `int` values that
  are only compared are integers.
* Writes to `io.Writer`, calls of the `Progress` callback and `glog` lines are
  returned as lists, in the order in which they happen.
* The goroutines of `Check` are summarised by the sequence `arrival` in which
  their results come out of the channel `resC`; every worker sends exactly one
  result (see `worker`), so `arrival` is a permutation of the workers' results.
  Where a method calls `Check` itself, the results are those that a network
  `Net` produces for the slice the method hands over.
  The caller's context is one that is never cancelled (`context.Background()`
  in `cmd/check/main.go`).  A call that does not return a value is `none`.
  The permit discipline itself is modelled as a transition system in `Sem`.
-/

namespace dnscheck

/-! ## The parts of `github.com/miekg/dns` that the checker uses -/

/-- The constant `dns.RcodeSuccess`. -/
def RcodeSuccess : Int := 0

/-- The constant `dns.TypeA`. -/
def TypeA : Nat := 1

/-- A resource record as far as `Check` inspects it: `Header().Rrtype` and, for an
A record, the printed address `a.A.String()`. -/
structure RR where
  Rrtype : Nat
  A : String
deriving DecidableEq

/-- The fields of `dns.Msg` that `Check` reads, together with `Rcode`, the reply
code of the header, which it does not read. -/
structure Msg where
  Opcode : Int
  Rcode : Int
  Answer : List RR
deriving DecidableEq

/-! ## Data model -/

/-- The struct `Checker`.  `Progress` records whether the callback is non-nil. -/
structure Checker where
  Server : String
  WantA : String
  Parallel : Nat
  Progress : Bool
  MaxFailed : Int
  LogFailures : Bool
  Okay : Nat
  WrongResult : Finset String
  NoResult : Finset String
  WrongOpcode : Finmap (fun _ : String => Finset String)
  Failed : Finset String

/-- The value `c.WrongOpcode[code]` read as a set: empty when the key is absent. -/
def Checker.bucket (c : Checker) (code : String) : Finset String :=
  (c.WrongOpcode.lookup code).getD ∅

/-- The constructor `New`. -/
def New (server wantA : String) : Checker :=
  { WrongResult := ∅
    NoResult := ∅
    WrongOpcode := ∅
    Failed := ∅
    Server := server
    WantA := wantA
    Parallel := 32
    MaxFailed := 1000
    Progress := false
    LogFailures := false
    Okay := 0 }

/-- The struct `result`: a worker builds it either with `err` set or with `res` set. -/
inductive result where
  | failed (domain : String) (err : String)
  | replied (domain : String) (res : Msg)
deriving DecidableEq

/-- The field `domain` of a result. -/
def result.domain : result → String
  | .failed d _ => d
  | .replied d _ => d

/-- The body of one worker goroutine between acquiring and releasing its permit:
it asks for the A record of `d + "."` and wraps what `cl.Exchange` returns. -/
def worker (Exchange : String → Except String Msg) (d : String) : result :=
  match Exchange (d ++ ".") with
  | .error err => .failed d err
  | .ok res => .replied d res

/-- What a call leaves behind: the checker state, the `Progress` invocations, the
`glog` lines, and the returned error (`none` for `nil`). -/
structure Run where
  c : Checker
  calls : List (Nat × Nat)
  logs : List String
  err : Option String

/-! ## `Dump` -/

/-- The `for d, _ := range m` loop of `display`, entered with the counter `printed`:
the lines written and the counter at loop exit. -/
def Dump.examples : Int → List String → List String × Int
  | printed, [] => ([], printed)
  | printed, d :: ds =>
    let printed := printed + 1
    if printed ≥ 5 then ([" - " ++ d], printed)
    else
      let rest := Dump.examples printed ds
      ((" - " ++ d) :: rest.1, rest.2)

/-- The closure `display` of `Dump`: the lines written for the category `t` with
members `m`, and whether it cleared `allOkay`. -/
def Dump.display (order : Finset String → List String) (t : String) (m : Finset String) :
    List String × Bool :=
  if m.card = 0 then ([], false)
  else
    let shown := Dump.examples 5 (order m)
    let left : Int := (m.card : Int) - shown.2
    ((t ++ ":") :: shown.1 ++ ["(and " ++ toString left ++ " more like this)"], true)

/-- The method `Dump`: the lines written to `w`. -/
def Dump (order : Finset String → List String) (c : Checker) : List String :=
  let d1 := Dump.display order "Wrong result (A record with wrong value)" c.WrongResult
  let d2 := Dump.display order "Unexpected record count (!= 1)" c.NoResult
  let d3 := (order c.WrongOpcode.keys).map fun opcode =>
    Dump.display order ("Wrong record type (" ++ opcode ++ " != A)") (c.bucket opcode)
  let d4 := Dump.display order "Failed (transport-level error)" c.Failed
  let allOkay := !(d1.2 || d3.any (fun d => d.2) || d2.2 || d4.2)
  d1.1 ++ d2.1 ++ (d3.map fun d => d.1).flatten ++ d4.1 ++
    (if allOkay then ["All okay (" ++ toString c.Okay ++ " records)!"] else [])

/-! ## `Check` -/

/-- The error value built by `fmt.Errorf` when too many queries failed. -/
def tooManyFailures : String := "too mainy failures"

/-- One iteration of the receive loop on a non-nil result `r`, after the progress
report: the new state, the `glog` lines, and whether `Check` returns the error. -/
def Check.receive (RcodeToString : Int → String) (c : Checker) (r : result) :
    Checker × List String × Bool :=
  match r with
  | .failed domain err =>
    let c := { c with Failed := insert domain c.Failed }
    let logs := if c.LogFailures then [domain ++ " failed: " ++ err] else []
    (c, logs, decide ((c.Failed.card : Int) > c.MaxFailed))
  | .replied domain res =>
    if res.Opcode ≠ RcodeSuccess then
      let opc := RcodeToString res.Opcode
      let c := if c.WrongOpcode.lookup opc = none then
        { c with WrongOpcode := c.WrongOpcode.insert opc ∅ } else c
      ({ c with WrongOpcode := c.WrongOpcode.insert opc (insert domain (c.bucket opc)) }, [], false)
    else
      match res.Answer with
      | [ans] =>
        if ans.Rrtype = TypeA ∧ ans.A = c.WantA then
          ({ c with Okay := (c.Okay + 1) % 2 ^ 64 }, [], false)
        else
          ({ c with WrongResult := insert domain c.WrongResult }, [], false)
      | _ => ({ c with NoResult := insert domain c.NoResult }, [], false)

/-- The `Progress` invocation of one loop iteration. -/
def Check.report (c : Checker) (done total : Nat) : List (Nat × Nat) :=
  if c.Progress then [(done, total)] else []

/-- The receive loop of `Check` (`for { select { ... } }`), entered with the counter
`done`, on the results still to arrive; when they are exhausted the channel is
closed and the receive yields `nil`. -/
def Check.loop (RcodeToString : Int → String) (total : Nat) :
    Checker → Nat → List result → Run
  | c, done, [] =>
    let done := (done + 1) % 2 ^ 64
    { c := c, calls := Check.report c done total, logs := [], err := none }
  | c, done, r :: rs =>
    let done := (done + 1) % 2 ^ 64
    let step := Check.receive RcodeToString c r
    if step.2.2 then
      { c := step.1, calls := Check.report c done total, logs := step.2.1,
        err := some tooManyFailures }
    else
      let rest := Check.loop RcodeToString total step.1 done rs
      { rest with calls := Check.report c done total ++ rest.calls,
                  logs := step.2.1 ++ rest.logs }

/-- The method `Check` on the slice `domains`, when the results come out of `resC`
in the order `arrival`.  The call does not return a value (`none`) in two cases.
A capacity `Parallel` that does not fit in an `int` makes `make(chan struct{},
c.Parallel)` panic.  With `Parallel = 0` the semaphore is unbuffered, no worker
ever gets past `sem <- struct{}{}`, and for a non-empty slice the channel `resC`
is never closed, so the receive loop waits forever. -/
def Check (RcodeToString : Int → String) (c : Checker) (domains : List String)
    (arrival : List result) : Option Run :=
  if 2 ^ 63 ≤ c.Parallel then none
  else if c.Parallel = 0 ∧ domains ≠ [] then none
  else some (Check.loop RcodeToString domains.length c 0 arrival)

/-- The network and the scheduler during one call of `Check`: what `cl.Exchange`
returns for a question, and the order in which the results that the workers have
sent come out of the channel `resC`. -/
structure Net where
  Exchange : String → Except String Msg
  arrive : List result → List result

/-- The results that the goroutines started for the slice `domains` send, one per
domain, in the order in which the receive loop gets them. -/
def Net.results (net : Net) (domains : List String) : List result :=
  net.arrive (domains.map (worker net.Exchange))

/-- The method `RetryFailed`: the keys of `Failed` are collected in the order
`order` yields them, `Failed` is replaced by a fresh map, and `Check` runs on
the collected slice. -/
def RetryFailed (RcodeToString : Int → String) (order : Finset String → List String)
    (net : Net) (c : Checker) : Option Run :=
  let domains := order c.Failed
  let c := { c with Failed := ∅ }
  Check RcodeToString c domains (net.results domains)

/-- The traces of two consecutive calls: state and error are those of the later call. -/
def Run.followedBy (first next : Run) : Run :=
  { next with calls := first.calls ++ next.calls, logs := first.logs ++ next.logs }

/-- The loop `for i := 0; i < 3; i++` of `CheckRetry` with `n` iterations to go, after
the calls so far have left `run` behind.  Pass number `j` (0 for the initial pass)
runs in the network `nets j`. -/
def CheckRetry.attempts (RcodeToString : Int → String) (order : Finset String → List String)
    (nets : Nat → Net) : Nat → Run → Option Run
  | 0, run => some { run with err := none }
  | n + 1, run =>
    if run.c.Failed.card = 0 then some { run with err := none }
    else
      match RetryFailed RcodeToString order (nets (3 - n)) run.c with
      | none => none
      | some next =>
        if next.err.isSome then some (run.followedBy next)
        else CheckRetry.attempts RcodeToString order nets n (run.followedBy next)

/-- The method `CheckRetry`. -/
def CheckRetry (RcodeToString : Int → String) (order : Finset String → List String)
    (nets : Nat → Net) (c : Checker) (domains : List String) : Option Run :=
  match Check RcodeToString c domains ((nets 0).results domains) with
  | none => none
  | some run =>
    if run.err.isSome then some run
    else CheckRetry.attempts RcodeToString order nets 3 run

/-- The retry orchestration in the words of the specification: one check pass over
`domains`, followed by `k` further check passes, each over the domains that are in
`Failed` when it starts and entered with `Failed` cleared. -/
def passes (RcodeToString : Int → String) (order : Finset String → List String)
    (nets : Nat → Net) (c : Checker) (domains : List String) : Nat → Option Run
  | 0 => Check RcodeToString c domains ((nets 0).results domains)
  | k + 1 =>
    match passes RcodeToString order nets c domains k with
    | none => none
    | some run =>
      match Check RcodeToString { run.c with Failed := ∅ } (order run.c.Failed)
          ((nets (k + 1)).results (order run.c.Failed)) with
      | none => none
      | some next => some (run.followedBy next)

/-! ## The permit discipline of the workers

The goroutines started by `Check` interleave; each one runs the same straight-line
program.  A state records how many permits are buffered in the channel `sem`, how
many steps each worker has taken, and the steps taken so far in the order in which
they happened.  A schedule is the list of workers that are given the next turn. -/

/-- The steps of a worker goroutine in program order: `sem <- struct{}{}`,
`cl.Exchange(&m, c.Server)`, `resC <- &result{...}`, and on return the deferred
calls in reverse order of registration, `wg.Done()` and then `<-sem`. -/
inductive Sem.Event where
  | acquire
  | query
  | deliver
  | signal
  | release
deriving DecidableEq

/-- The program of a worker. -/
def Sem.program : List Sem.Event :=
  [.acquire, .query, .deliver, .signal, .release]

/-- The state of the workers and of the channel `sem`. -/
structure Sem.State where
  sem : Nat
  pcs : List Nat
  trace : List (Nat × Sem.Event)

/-- The state right after the dispatch loop has started one goroutine per domain. -/
def Sem.init (n : Nat) : Sem.State :=
  { sem := 0, pcs := List.replicate n 0, trace := [] }

/-- Worker `i` is given a turn.  It takes its next step unless it has returned or
is blocked: a send on `sem` blocks while the channel holds `cap` elements, a
receive blocks while it is empty. -/
def Sem.step (cap : Nat) (s : Sem.State) (i : Nat) : Sem.State :=
  match s.pcs[i]? with
  | none => s
  | some pc =>
    match Sem.program[pc]? with
    | none => s
    | some .acquire =>
      if s.sem < cap then
        { sem := s.sem + 1, pcs := s.pcs.set i (pc + 1), trace := s.trace ++ [(i, .acquire)] }
      else s
    | some .release =>
      if 0 < s.sem then
        { sem := s.sem - 1, pcs := s.pcs.set i (pc + 1), trace := s.trace ++ [(i, .release)] }
      else s
    | some ev => { s with pcs := s.pcs.set i (pc + 1), trace := s.trace ++ [(i, ev)] }

/-- The state after the turns of a schedule. -/
def Sem.exec (cap : Nat) (s : Sem.State) (sched : List Nat) : Sem.State :=
  sched.foldl (Sem.step cap) s

/-- A worker that has taken `pc` steps holds a permit: it has acquired one and has
not yet released it. -/
def Sem.holds (pc : Nat) : Bool :=
  decide (1 ≤ pc ∧ pc ≤ 4)

/-- The number of workers that hold a permit. -/
def Sem.inFlight (s : Sem.State) : Nat :=
  s.pcs.countP Sem.holds

/-- The steps worker `i` has taken so far, in order. -/
def Sem.events (s : Sem.State) (i : Nat) : List Sem.Event :=
  (s.trace.filter (fun e => e.1 = i)).map (fun e => e.2)

/-- The number of steps the workers have still to take. -/
def Sem.todo (s : Sem.State) : Nat :=
  (s.pcs.map (fun pc => 5 - pc)).sum

/-- The invariant of the workers: the channel holds one element per worker that
holds a permit, never more than its capacity, and every worker has taken an
initial segment of its program. -/
def Sem.Inv (cap : Nat) (s : Sem.State) : Prop :=
  s.sem = Sem.inFlight s ∧ s.sem ≤ cap
    ∧ ∀ i, Sem.events s i = Sem.program.take (s.pcs.getD i 0)

/-! ## Concrete inputs -/

/-- The table `dns.RcodeToString` of `github.com/miekg/dns`; a missing key reads as
the empty string, as in Go. -/
def dns.RcodeToString (rcode : Int) : String :=
  if rcode = 0 then "NOERROR"
  else if rcode = 1 then "FORMERR"
  else if rcode = 2 then "SERVFAIL"
  else if rcode = 3 then "NXDOMAIN"
  else if rcode = 4 then "NOTIMP"
  else if rcode = 5 then "REFUSED"
  else if rcode = 6 then "YXDOMAIN"
  else if rcode = 7 then "YXRRSET"
  else if rcode = 8 then "NXRRSET"
  else if rcode = 9 then "NOTAUTH"
  else if rcode = 10 then "NOTZONE"
  else if rcode = 11 then "DSOTYPENI"
  else if rcode = 16 then "BADSIG"
  else if rcode = 17 then "BADKEY"
  else if rcode = 18 then "BADTIME"
  else if rcode = 19 then "BADMODE"
  else if rcode = 20 then "BADNAME"
  else if rcode = 21 then "BADALG"
  else if rcode = 22 then "BADTRUNC"
  else if rcode = 23 then "BADCOOKIE"
  else ""

/-- One admissible order for `range` over a map: the keys in increasing order. -/
def sortedOrder (m : Finset String) : List String :=
  m.sort (fun a b => a ≤ b)

/-- The checker that `cmd/check/main.go` builds, with the progress callback set. -/
def mainChecker : Checker :=
  let c := New "192.0.2.53:53" "145.237.235.240"
  { c with Parallel := 16, LogFailures := true, Progress := true }

/-- A resolver that answers `ok.example` with the expected address, `other.example`
with another address, `gone.example` with the reply code NXDOMAIN and no answer,
`odd.example` with the expected address in a reply whose header has the reply code
success and the opcode 2, and does not answer any other question in time. -/
def sampleExchange (name : String) : Except String Msg :=
  if name = "ok.example." then .ok ⟨0, 0, [⟨1, "145.237.235.240"⟩]⟩
  else if name = "other.example." then .ok ⟨0, 0, [⟨1, "198.51.100.7"⟩]⟩
  else if name = "gone.example." then .ok ⟨0, 3, []⟩
  else if name = "odd.example." then .ok ⟨2, 0, [⟨1, "145.237.235.240"⟩]⟩
  else .error "i/o timeout"

/-- Three domains of the sample resolver, and their results in an order of arrival
that differs from the order of dispatch. -/
def sampleDomains : List String := ["ok.example", "gone.example", "slow.example"]

/-- The results for `sampleDomains`, last one first. -/
def sampleArrival : List result :=
  [worker sampleExchange "slow.example", worker sampleExchange "ok.example",
    worker sampleExchange "gone.example"]

/-- A checker that gives up after more than one transport failure. -/
def strictChecker : Checker :=
  { mainChecker with MaxFailed := 1 }

/-- A checker state after a pass in which one query timed out. -/
def retryChecker : Checker :=
  { mainChecker with Okay := 1, NoResult := {"gone.example"}, Failed := {"slow.example"} }

/-- The network of every pass: the sample resolver, the results arriving in the
reverse of the dispatch order. -/
def sampleNet : Net :=
  { Exchange := sampleExchange, arrive := List.reverse }

/-- A checker state whose success counter is at the largest `uint` value, with one
domain in `Failed` that the sample resolver answers as expected. -/
def wrapChecker : Checker :=
  { mainChecker with Okay := 2 ^ 64 - 1, Failed := {"ok.example"} }

/-! ## Auxiliary notions for the verification -/

/-- The five outcomes the receive loop distinguishes. -/
inductive Category where
  | failed
  | wrongOpcode (code : String)
  | noResult
  | okay
  | wrongResult
deriving DecidableEq

/-- The branch of the receive loop taken by a result. -/
def Check.category (RcodeToString : Int → String) (wantA : String) : result → Category
  | .failed _ _ => .failed
  | .replied _ res =>
    if res.Opcode ≠ RcodeSuccess then .wrongOpcode (RcodeToString res.Opcode)
    else
      match res.Answer with
      | [ans] => if ans.Rrtype = TypeA ∧ ans.A = wantA then .okay else .wrongResult
      | _ => .noResult

/-- The state change of a branch of the receive loop for the domain `d`. -/
def Checker.add (c : Checker) (d : String) : Category → Checker
  | .failed => { c with Failed := insert d c.Failed }
  | .wrongOpcode code =>
    { c with WrongOpcode := c.WrongOpcode.insert code (insert d (c.bucket code)) }
  | .noResult => { c with NoResult := insert d c.NoResult }
  | .okay => { c with Okay := (c.Okay + 1) % 2 ^ 64 }
  | .wrongResult => { c with WrongResult := insert d c.WrongResult }

/-- The state after the receive loop has taken the results `rs`, one after the
other, with the return on too many failures left out. -/
def Check.drain (RcodeToString : Int → String) (c : Checker) (rs : List result) : Checker :=
  rs.foldl (fun c r => (Check.receive RcodeToString c r).1) c

/-- The number of domains accounted for: the success counter plus the sizes of
all category sets. -/
def Checker.total (c : Checker) : Nat :=
  c.Okay + c.WrongResult.card + c.NoResult.card
    + (∑ code ∈ c.WrongOpcode.keys, (c.bucket code).card) + c.Failed.card

/-- The domain `d` is in none of the category sets. -/
def Checker.Fresh (c : Checker) (d : String) : Prop :=
  d ∉ c.WrongResult ∧ d ∉ c.NoResult ∧ d ∉ c.Failed ∧ ∀ code, d ∉ c.bucket code

/-- The domain `d` is in at most one of the category sets. -/
def Checker.AtMostOnce (c : Checker) (d : String) : Prop :=
  ¬(d ∈ c.WrongResult ∧ d ∈ c.NoResult) ∧ ¬(d ∈ c.WrongResult ∧ d ∈ c.Failed)
    ∧ ¬(d ∈ c.NoResult ∧ d ∈ c.Failed)
    ∧ (∀ code, d ∈ c.bucket code → d ∉ c.WrongResult ∧ d ∉ c.NoResult ∧ d ∉ c.Failed)
    ∧ ∀ code code', d ∈ c.bucket code → d ∈ c.bucket code' → code = code'

/-! ## Basic facts about one loop iteration -/

section step
variable (tbl : Int → String)

theorem bucket_insert_self (c : Checker) (code : String) (s : Finset String) :
    ({ c with WrongOpcode := c.WrongOpcode.insert code s } : Checker).bucket code = s := by
  simp [Checker.bucket]

theorem bucket_insert_of_ne (c : Checker) (code code' : String) (s : Finset String)
    (h : code' ≠ code) :
    ({ c with WrongOpcode := c.WrongOpcode.insert code s } : Checker).bucket code'
      = c.bucket code' := by
  simp [Checker.bucket, Finmap.lookup_insert_of_ne _ h]

theorem keys_insert (m : Finmap (fun _ : String => Finset String)) (code : String)
    (s : Finset String) : (m.insert code s).keys = insert code m.keys := by
  ext x
  simp [Finmap.mem_keys, Finmap.mem_insert]

/-- The state component of one loop iteration is `Checker.add` at the branch taken. -/
theorem receive_fst (c : Checker) (r : result) :
    (Check.receive tbl c r).1 = c.add r.domain (Check.category tbl c.WantA r) := by
  cases r with
  | failed d e => simp [Check.receive, Check.category, Checker.add, result.domain]
  | replied d res =>
    obtain ⟨op, rc, ans⟩ := res
    by_cases h1 : op = RcodeSuccess
    · rcases ans with _ | ⟨a, _ | ⟨b, l⟩⟩
      · simp [Check.receive, Check.category, Checker.add, result.domain, h1]
      · by_cases h3 : a.Rrtype = TypeA ∧ a.A = c.WantA <;>
          simp [Check.receive, Check.category, Checker.add, result.domain, h1, h3]
      · simp [Check.receive, Check.category, Checker.add, result.domain, h1]
    · by_cases h2 : c.WrongOpcode.lookup (tbl op) = none
      · simp [Check.receive, Check.category, Checker.add, result.domain, h1, h2,
          Checker.bucket, Finmap.insert_insert]
      · simp [Check.receive, Check.category, Checker.add, result.domain, h1, h2]

end step

/-! ## Facts about `Checker.add` -/

section add
variable (c : Checker) (d : String) (k : Category)

@[simp] theorem add_WantA : (c.add d k).WantA = c.WantA := by cases k <;> rfl
@[simp] theorem add_MaxFailed : (c.add d k).MaxFailed = c.MaxFailed := by cases k <;> rfl
@[simp] theorem add_Parallel : (c.add d k).Parallel = c.Parallel := by cases k <;> rfl
@[simp] theorem add_Progress : (c.add d k).Progress = c.Progress := by cases k <;> rfl
@[simp] theorem add_LogFailures : (c.add d k).LogFailures = c.LogFailures := by cases k <;> rfl
@[simp] theorem add_Server : (c.add d k).Server = c.Server := by cases k <;> rfl

theorem add_Failed :
    (c.add d k).Failed = if k = .failed then insert d c.Failed else c.Failed := by
  cases k <;> simp [Checker.add]

theorem add_WrongResult :
    (c.add d k).WrongResult = if k = .wrongResult then insert d c.WrongResult
      else c.WrongResult := by
  cases k <;> simp [Checker.add]

theorem add_NoResult :
    (c.add d k).NoResult = if k = .noResult then insert d c.NoResult else c.NoResult := by
  cases k <;> simp [Checker.add]

theorem add_Okay :
    (c.add d k).Okay = if k = .okay then (c.Okay + 1) % 2 ^ 64 else c.Okay := by
  cases k <;> simp [Checker.add]

theorem add_bucket (code : String) :
    (c.add d k).bucket code = if k = .wrongOpcode code then insert d (c.bucket code)
      else c.bucket code := by
  cases k with
  | wrongOpcode code' =>
    by_cases h : code' = code
    · subst h
      simp [Checker.add, bucket_insert_self]
    · have h' : code ≠ code' := fun e => h e.symm
      simp [Checker.add, bucket_insert_of_ne _ _ _ _ h', h]
  | _ => simp [Checker.add, Checker.bucket]

theorem add_keys :
    (c.add d k).WrongOpcode.keys =
      match k with
      | .wrongOpcode code => insert code c.WrongOpcode.keys
      | _ => c.WrongOpcode.keys := by
  cases k <;> simp [Checker.add, keys_insert]

theorem mem_add_Failed (x : String) :
    x ∈ (c.add d k).Failed ↔ x ∈ c.Failed ∨ (x = d ∧ k = .failed) := by
  rw [add_Failed]; split_ifs with h <;> simp [h, or_comm]

theorem mem_add_WrongResult (x : String) :
    x ∈ (c.add d k).WrongResult ↔ x ∈ c.WrongResult ∨ (x = d ∧ k = .wrongResult) := by
  rw [add_WrongResult]; split_ifs with h <;> simp [h, or_comm]

theorem mem_add_NoResult (x : String) :
    x ∈ (c.add d k).NoResult ↔ x ∈ c.NoResult ∨ (x = d ∧ k = .noResult) := by
  rw [add_NoResult]; split_ifs with h <;> simp [h, or_comm]

theorem mem_add_bucket (code x : String) :
    x ∈ (c.add d k).bucket code ↔ x ∈ c.bucket code ∨ (x = d ∧ k = .wrongOpcode code) := by
  rw [add_bucket]; split_ifs with h <;> simp [h, or_comm]

/-- A checker is determined by its fields, the map `WrongOpcode` by its buckets and keys. -/
theorem Checker.ext_lookup {a b : Checker} (h1 : a.Server = b.Server) (h2 : a.WantA = b.WantA)
    (h3 : a.Parallel = b.Parallel) (h4 : a.Progress = b.Progress)
    (h5 : a.MaxFailed = b.MaxFailed) (h6 : a.LogFailures = b.LogFailures)
    (h7 : a.Okay = b.Okay) (h8 : a.WrongResult = b.WrongResult)
    (h9 : a.NoResult = b.NoResult) (h10 : a.Failed = b.Failed)
    (h11 : ∀ code, a.WrongOpcode.lookup code = b.WrongOpcode.lookup code) : a = b := by
  have h12 : a.WrongOpcode = b.WrongOpcode := Finmap.ext_lookup h11
  cases a; cases b; simp_all

/-- Two iterations of the receive loop commute in their effect on the state. -/
theorem add_comm (d' : String) (k' : Category) :
    (c.add d k).add d' k' = (c.add d' k').add d k := by
  cases k <;> cases k' <;>
    first
    | rfl
    | (simp only [Checker.add, Checker.bucket]; congr 1; exact Finset.Insert.comm _ _ _)
    | skip
  rename_i a b
  by_cases h : a = b
  · subst h
    simp only [Checker.add, bucket_insert_self, Finmap.insert_insert]
    rw [Finset.Insert.comm]
  · have h' : b ≠ a := fun e => h e.symm
    simp only [Checker.add, bucket_insert_of_ne _ _ _ _ h, bucket_insert_of_ne _ _ _ _ h']
    congr 1
    exact Finmap.insert_insert_of_ne _ h

theorem bucket_eq_empty_of_not_mem_keys (code : String) (h : code ∉ c.WrongOpcode.keys) :
    c.bucket code = ∅ := by
  have : c.WrongOpcode.lookup code = none := by
    rw [Finmap.lookup_eq_none, ← Finmap.mem_keys]; exact h
  simp [Checker.bucket, this]

/-- Adding a domain that is not yet in the bucket raises the sum of the bucket sizes by one. -/
theorem sum_bucket_add (code : String) (h : d ∉ c.bucket code) :
    (∑ x ∈ (c.add d (.wrongOpcode code)).WrongOpcode.keys,
        ((c.add d (.wrongOpcode code)).bucket x).card)
      = (∑ x ∈ c.WrongOpcode.keys, (c.bucket x).card) + 1 := by
  have hb : ∀ x, ((c.add d (.wrongOpcode code)).bucket x).card
      = (c.bucket x).card + if code = x then 1 else 0 := by
    intro x
    rw [add_bucket]
    by_cases hx : code = x
    · subst hx; simp [Finset.card_insert_of_not_mem h]
    · simp [hx]
  rw [add_keys]
  simp only [hb, Finset.sum_add_distrib]
  rw [Finset.sum_ite_eq, if_pos (Finset.mem_insert_self _ _)]
  congr 1
  apply Finset.sum_insert_of_eq_zero_if_not_mem
  intro hn
  simp [bucket_eq_empty_of_not_mem_keys c code hn]

/-- A domain that is in no category set is counted exactly once when it is added. -/
theorem total_add (hf : c.Fresh d) (ho : c.Okay + 1 < 2 ^ 64) :
    (c.add d k).total = c.total + 1 := by
  obtain ⟨h1, h2, h3, h4⟩ := hf
  cases k with
  | wrongOpcode code =>
    have hs := sum_bucket_add c d code (h4 code)
    simp only [Checker.total, hs]
    simp only [Checker.add]
    omega
  | failed =>
    simp only [Checker.total, Checker.add, Checker.bucket, Finset.card_insert_of_not_mem h3]
    omega
  | noResult =>
    simp only [Checker.total, Checker.add, Checker.bucket, Finset.card_insert_of_not_mem h2]
    omega
  | wrongResult =>
    simp only [Checker.total, Checker.add, Checker.bucket, Finset.card_insert_of_not_mem h1]
    omega
  | okay =>
    simp only [Checker.total, Checker.add, Checker.bucket, Nat.mod_eq_of_lt ho]
    omega

theorem Fresh_add (x : String) (hx : x ≠ d) (hf : c.Fresh x) : (c.add d k).Fresh x := by
  obtain ⟨h1, h2, h3, h4⟩ := hf
  refine ⟨?_, ?_, ?_, fun code => ?_⟩
  · simp [mem_add_WrongResult, h1, hx]
  · simp [mem_add_NoResult, h2, hx]
  · simp [mem_add_Failed, h3, hx]
  · simp [mem_add_bucket, h4 code, hx]

theorem AtMostOnce_add_of_ne (x : String) (hx : x ≠ d) (hf : c.AtMostOnce x) :
    (c.add d k).AtMostOnce x := by
  simpa [Checker.AtMostOnce, mem_add_WrongResult, mem_add_NoResult, mem_add_Failed,
    mem_add_bucket, hx] using hf

theorem AtMostOnce_add_of_Fresh (hf : c.Fresh d) : (c.add d k).AtMostOnce d := by
  obtain ⟨h1, h2, h3, h4⟩ := hf
  simp only [Checker.AtMostOnce, mem_add_WrongResult, mem_add_NoResult, mem_add_Failed,
    mem_add_bucket, h1, h2, h3, h4, false_or, true_and]
  cases k <;> simp

theorem AtMostOnce_of_Fresh (hf : c.Fresh d) : c.AtMostOnce d := by
  obtain ⟨h1, h2, h3, h4⟩ := hf
  simp [Checker.AtMostOnce, h1, h2, h3, h4]

end add

/-! ## Facts about the drained state -/

section drain
variable (tbl : Int → String)

theorem drain_nil (c : Checker) : Check.drain tbl c [] = c := rfl

theorem drain_cons (c : Checker) (r : result) (rs : List result) :
    Check.drain tbl c (r :: rs)
      = Check.drain tbl (c.add r.domain (Check.category tbl c.WantA r)) rs := by
  simp [Check.drain, receive_fst]

theorem drain_append (c : Checker) (rs rs' : List result) :
    Check.drain tbl c (rs ++ rs') = Check.drain tbl (Check.drain tbl c rs) rs' := by
  simp [Check.drain]

@[simp] theorem drain_WantA (c : Checker) (rs : List result) :
    (Check.drain tbl c rs).WantA = c.WantA := by
  induction rs generalizing c with
  | nil => rfl
  | cons r rs ih => rw [drain_cons, ih, add_WantA]

@[simp] theorem drain_MaxFailed (c : Checker) (rs : List result) :
    (Check.drain tbl c rs).MaxFailed = c.MaxFailed := by
  induction rs generalizing c with
  | nil => rfl
  | cons r rs ih => rw [drain_cons, ih, add_MaxFailed]

@[simp] theorem drain_Parallel (c : Checker) (rs : List result) :
    (Check.drain tbl c rs).Parallel = c.Parallel := by
  induction rs generalizing c with
  | nil => rfl
  | cons r rs ih => rw [drain_cons, ih, add_Parallel]

/-- The drained state does not depend on the order of the results. -/
theorem drain_perm (c : Checker) {rs rs' : List result} (h : rs.Perm rs') :
    Check.drain tbl c rs = Check.drain tbl c rs' := by
  induction h generalizing c with
  | nil => rfl
  | cons r _ ih => rw [drain_cons, drain_cons, ih]
  | swap r r' l =>
    simp only [drain_cons, add_WantA]
    rw [add_comm]
  | trans _ _ ih1 ih2 => rw [ih1, ih2]

/-- Membership in a category set after draining: the old members and the domains of
the results that took the branch of that set. -/
theorem mem_drain_Failed (c : Checker) (rs : List result) (x : String) :
    x ∈ (Check.drain tbl c rs).Failed ↔
      x ∈ c.Failed ∨ ∃ r ∈ rs, r.domain = x ∧ Check.category tbl c.WantA r = .failed := by
  induction rs generalizing c with
  | nil => simp [drain_nil]
  | cons r rs ih =>
    rw [drain_cons, ih, mem_add_Failed, add_WantA]
    simp only [List.mem_cons, exists_eq_or_imp]
    constructor
    · rintro ((h | ⟨rfl, h⟩) | h)
      · exact Or.inl h
      · exact Or.inr (Or.inl ⟨rfl, h⟩)
      · exact Or.inr (Or.inr h)
    · rintro (h | ⟨rfl, h⟩ | h)
      · exact Or.inl (Or.inl h)
      · exact Or.inl (Or.inr ⟨rfl, h⟩)
      · exact Or.inr h

theorem mem_drain_WrongResult (c : Checker) (rs : List result) (x : String) :
    x ∈ (Check.drain tbl c rs).WrongResult ↔
      x ∈ c.WrongResult ∨
        ∃ r ∈ rs, r.domain = x ∧ Check.category tbl c.WantA r = .wrongResult := by
  induction rs generalizing c with
  | nil => simp [drain_nil]
  | cons r rs ih =>
    rw [drain_cons, ih, mem_add_WrongResult, add_WantA]
    simp only [List.mem_cons, exists_eq_or_imp]
    constructor
    · rintro ((h | ⟨rfl, h⟩) | h)
      · exact Or.inl h
      · exact Or.inr (Or.inl ⟨rfl, h⟩)
      · exact Or.inr (Or.inr h)
    · rintro (h | ⟨rfl, h⟩ | h)
      · exact Or.inl (Or.inl h)
      · exact Or.inl (Or.inr ⟨rfl, h⟩)
      · exact Or.inr h

theorem mem_drain_NoResult (c : Checker) (rs : List result) (x : String) :
    x ∈ (Check.drain tbl c rs).NoResult ↔
      x ∈ c.NoResult ∨ ∃ r ∈ rs, r.domain = x ∧ Check.category tbl c.WantA r = .noResult := by
  induction rs generalizing c with
  | nil => simp [drain_nil]
  | cons r rs ih =>
    rw [drain_cons, ih, mem_add_NoResult, add_WantA]
    simp only [List.mem_cons, exists_eq_or_imp]
    constructor
    · rintro ((h | ⟨rfl, h⟩) | h)
      · exact Or.inl h
      · exact Or.inr (Or.inl ⟨rfl, h⟩)
      · exact Or.inr (Or.inr h)
    · rintro (h | ⟨rfl, h⟩ | h)
      · exact Or.inl (Or.inl h)
      · exact Or.inl (Or.inr ⟨rfl, h⟩)
      · exact Or.inr h

theorem mem_drain_bucket (c : Checker) (rs : List result) (code x : String) :
    x ∈ (Check.drain tbl c rs).bucket code ↔
      x ∈ c.bucket code ∨
        ∃ r ∈ rs, r.domain = x ∧ Check.category tbl c.WantA r = .wrongOpcode code := by
  induction rs generalizing c with
  | nil => simp [drain_nil]
  | cons r rs ih =>
    rw [drain_cons, ih, mem_add_bucket, add_WantA]
    simp only [List.mem_cons, exists_eq_or_imp]
    constructor
    · rintro ((h | ⟨rfl, h⟩) | h)
      · exact Or.inl h
      · exact Or.inr (Or.inl ⟨rfl, h⟩)
      · exact Or.inr (Or.inr h)
    · rintro (h | ⟨rfl, h⟩ | h)
      · exact Or.inl (Or.inl h)
      · exact Or.inl (Or.inr ⟨rfl, h⟩)
      · exact Or.inr h

theorem eq_of_domain_eq {rs : List result} (hnd : (rs.map result.domain).Nodup)
    {r r' : result} (hr : r ∈ rs) (hr' : r' ∈ rs) (h : r.domain = r'.domain) : r = r' :=
  List.inj_on_of_nodup_map hnd hr hr' h

/-- When the results are for distinct domains, a domain that was in no category set
is in at most one of them after draining. -/
theorem AtMostOnce_drain (c : Checker) (rs : List result)
    (hnd : (rs.map result.domain).Nodup) (x : String) (hf : c.Fresh x) :
    (Check.drain tbl c rs).AtMostOnce x := by
  obtain ⟨h1, h2, h3, h4⟩ := hf
  have key : ∀ {k k' : Category},
      (∃ r ∈ rs, r.domain = x ∧ Check.category tbl c.WantA r = k) →
      (∃ r ∈ rs, r.domain = x ∧ Check.category tbl c.WantA r = k') → k = k' := by
    rintro k k' ⟨r, hr, hd, hk⟩ ⟨r', hr', hd', hk'⟩
    have := eq_of_domain_eq hnd hr hr' (hd.trans hd'.symm)
    subst this
    exact hk.symm.trans hk'
  simp only [Checker.AtMostOnce, mem_drain_WrongResult, mem_drain_NoResult, mem_drain_Failed,
    mem_drain_bucket, h1, h2, h3, h4, false_or]
  refine ⟨?_, ?_, ?_, ?_, ?_⟩
  · rintro ⟨a, b⟩; exact absurd (key a b) (by simp)
  · rintro ⟨a, b⟩; exact absurd (key a b) (by simp)
  · rintro ⟨a, b⟩; exact absurd (key a b) (by simp)
  · intro code a
    refine ⟨?_, ?_, ?_⟩ <;> intro b <;> exact absurd (key a b) (by simp)
  · intro code code' a b
    simpa using key a b

theorem add_Okay_le (c : Checker) (d : String) (k : Category) (ho : c.Okay + 1 < 2 ^ 64) :
    c.Okay ≤ (c.add d k).Okay ∧ (c.add d k).Okay ≤ c.Okay + 1 := by
  rw [add_Okay]
  split_ifs
  · rw [Nat.mod_eq_of_lt ho]; omega
  · omega

/-- The success counter only grows while it does not wrap around. -/
theorem Okay_drain (c : Checker) (rs : List result) (ho : c.Okay + rs.length < 2 ^ 64) :
    c.Okay ≤ (Check.drain tbl c rs).Okay ∧ (Check.drain tbl c rs).Okay ≤ c.Okay + rs.length := by
  induction rs generalizing c with
  | nil => simp [drain_nil]
  | cons r rs ih =>
    simp only [List.length_cons] at ho
    have h1 := add_Okay_le c r.domain (Check.category tbl c.WantA r) (by omega)
    have h2 := ih (c.add r.domain (Check.category tbl c.WantA r)) (by omega)
    rw [drain_cons]
    simp only [List.length_cons]
    omega

/-- Results for distinct domains that are in no category set are counted once each. -/
theorem total_drain (c : Checker) (rs : List result)
    (hnd : (rs.map result.domain).Nodup) (hf : ∀ r ∈ rs, c.Fresh r.domain)
    (ho : c.Okay + rs.length < 2 ^ 64) :
    (Check.drain tbl c rs).total = c.total + rs.length := by
  induction rs generalizing c with
  | nil => simp [drain_nil]
  | cons r rs ih =>
    simp only [List.length_cons] at ho
    simp only [List.map_cons, List.nodup_cons, List.mem_map, not_exists, not_and] at hnd
    have h1 := add_Okay_le c r.domain (Check.category tbl c.WantA r) (by omega)
    rw [drain_cons, ih _ hnd.2 ?_ (by omega), total_add _ _ _ (hf r (List.mem_cons_self _ _))
      (by omega)]
    · simp only [List.length_cons]; omega
    · intro r' hr'
      refine Fresh_add _ _ _ _ ?_ (hf r' (List.mem_cons_of_mem _ hr'))
      exact fun e => hnd.1 r' hr' e

end drain

/-! ## Facts about the receive loop -/

section loop
variable (tbl : Int → String)

theorem receive_replied_snd (c : Checker) (d : String) (res : Msg) :
    (Check.receive tbl c (.replied d res)).2 = ([], false) := by
  obtain ⟨op, rc, ans⟩ := res
  by_cases h1 : op = RcodeSuccess
  · rcases ans with _ | ⟨a, _ | ⟨b, l⟩⟩
    · simp [Check.receive, h1]
    · by_cases h3 : a.Rrtype = TypeA ∧ a.A = c.WantA <;> simp [Check.receive, h1, h3]
    · simp [Check.receive, h1]
  · simp [Check.receive, h1]

theorem category_replied_ne_failed (wantA d : String) (res : Msg) :
    Check.category tbl wantA (.replied d res) ≠ .failed := by
  obtain ⟨op, rc, ans⟩ := res
  by_cases h1 : op = RcodeSuccess
  · rcases ans with _ | ⟨a, _ | ⟨b, l⟩⟩
    · simp [Check.category, h1]
    · by_cases h3 : a.Rrtype = TypeA ∧ a.A = wantA <;> simp [Check.category, h1, h3]
    · simp [Check.category, h1]
  · simp [Check.category, h1]

/-- The loop returns the error exactly on a transport failure that leaves more than
`MaxFailed` domains in `Failed`. -/
theorem receive_abort (c : Checker) (r : result) :
    (Check.receive tbl c r).2.2 = true ↔
      Check.category tbl c.WantA r = .failed
        ∧ c.MaxFailed < ((insert r.domain c.Failed).card : Int) := by
  cases r with
  | failed d e => simp [Check.receive, Check.category, result.domain]
  | replied d res =>
    simp [receive_replied_snd, category_replied_ne_failed]

theorem loop_nil (total : Nat) (c : Checker) (done : Nat) :
    Check.loop tbl total c done [] =
      { c := c, calls := Check.report c ((done + 1) % 2 ^ 64) total, logs := [], err := none } :=
  rfl

theorem loop_cons_abort (total : Nat) (c : Checker) (done : Nat) (r : result)
    (rs : List result) (h : (Check.receive tbl c r).2.2 = true) :
    Check.loop tbl total c done (r :: rs) =
      { c := (Check.receive tbl c r).1, calls := Check.report c ((done + 1) % 2 ^ 64) total,
        logs := (Check.receive tbl c r).2.1, err := some tooManyFailures } := by
  simp [Check.loop, h]

theorem loop_cons_continue (total : Nat) (c : Checker) (done : Nat) (r : result)
    (rs : List result) (h : (Check.receive tbl c r).2.2 = false) :
    Check.loop tbl total c done (r :: rs) =
      { Check.loop tbl total (Check.receive tbl c r).1 ((done + 1) % 2 ^ 64) rs with
        calls := Check.report c ((done + 1) % 2 ^ 64) total
          ++ (Check.loop tbl total (Check.receive tbl c r).1 ((done + 1) % 2 ^ 64) rs).calls
        logs := (Check.receive tbl c r).2.1
          ++ (Check.loop tbl total (Check.receive tbl c r).1 ((done + 1) % 2 ^ 64) rs).logs } := by
  simp [Check.loop, h]

/-- The only error the loop returns is the one for too many failures. -/
theorem loop_err (total : Nat) (c : Checker) (done : Nat) (rs : List result) :
    (Check.loop tbl total c done rs).err = none
      ∨ (Check.loop tbl total c done rs).err = some tooManyFailures := by
  induction rs generalizing c done with
  | nil => simp [loop_nil]
  | cons r rs ih =>
    cases h : (Check.receive tbl c r).2.2
    · rw [loop_cons_continue _ _ _ _ _ _ h]; exact ih _ _
    · rw [loop_cons_abort _ _ _ _ _ _ h]; simp

/-- A loop that ends without error has taken every result. -/
theorem loop_c_of_err_none (total : Nat) (c : Checker) (done : Nat) (rs : List result)
    (h : (Check.loop tbl total c done rs).err = none) :
    (Check.loop tbl total c done rs).c = Check.drain tbl c rs := by
  induction rs generalizing c done with
  | nil => simp [loop_nil, drain_nil]
  | cons r rs ih =>
    cases hr : (Check.receive tbl c r).2.2
    · rw [loop_cons_continue _ _ _ _ _ _ hr] at h ⊢
      simp only at h ⊢
      rw [ih _ _ h, drain_cons, receive_fst]
    · rw [loop_cons_abort _ _ _ _ _ _ hr] at h
      simp at h

theorem Failed_subset_drain (c : Checker) (rs : List result) :
    c.Failed ⊆ (Check.drain tbl c rs).Failed := by
  intro x hx
  rw [mem_drain_Failed]
  exact Or.inl hx

theorem Failed_drain_of_no_failure (c : Checker) (rs : List result)
    (h : ¬∃ r ∈ rs, Check.category tbl c.WantA r = .failed) :
    (Check.drain tbl c rs).Failed = c.Failed := by
  ext x
  rw [mem_drain_Failed]
  constructor
  · rintro (hx | ⟨r, hr, -, hk⟩)
    · exact hx
    · exact absurd ⟨r, hr, hk⟩ h
  · exact Or.inl

/-- The loop returns the error if and only if some result is a transport failure and
the failures, taken together, leave more than `MaxFailed` domains in `Failed`. -/
theorem loop_err_iff (total : Nat) (c : Checker) (done : Nat) (rs : List result) :
    (Check.loop tbl total c done rs).err = some tooManyFailures ↔
      (∃ r ∈ rs, Check.category tbl c.WantA r = .failed)
        ∧ c.MaxFailed < ((Check.drain tbl c rs).Failed.card : Int) := by
  induction rs generalizing c done with
  | nil => simp [loop_nil]
  | cons r rs ih =>
    cases hr : (Check.receive tbl c r).2.2
    · rw [loop_cons_continue _ _ _ _ _ _ hr]
      simp only
      rw [ih, drain_cons, receive_fst, add_WantA, add_MaxFailed]
      constructor
      · rintro ⟨⟨r', hr', hk⟩, hc⟩
        exact ⟨⟨r', List.mem_cons_of_mem _ hr', hk⟩, hc⟩
      · rintro ⟨⟨r', hr', hk⟩, hc⟩
        refine ⟨?_, hc⟩
        by_contra hno
        rcases List.mem_cons.1 hr' with rfl | hr''
        · have hF := Failed_drain_of_no_failure tbl
            (c.add r'.domain (Check.category tbl c.WantA r')) rs (by simpa using hno)
          rw [hF, hk] at hc
          have : (Check.receive tbl c r').2.2 = true := by
            rw [receive_abort]
            refine ⟨hk, ?_⟩
            simpa [Checker.add] using hc
          rw [hr] at this
          exact Bool.noConfusion this
        · exact hno ⟨r', hr'', hk⟩
    · rw [loop_cons_abort _ _ _ _ _ _ hr]
      simp only [true_iff]
      rw [receive_abort] at hr
      refine ⟨⟨r, List.mem_cons_self _ _, hr.1⟩, ?_⟩
      rw [drain_cons, hr.1]
      have h1 := Finset.card_le_card
        (Failed_subset_drain tbl (c.add r.domain Category.failed) rs)
      have h2 : (c.add r.domain Category.failed).Failed = insert r.domain c.Failed := rfl
      rw [h2] at h1
      have h3 := hr.2
      omega

/-- The state and the error of the loop depend neither on the counter nor on the total. -/
theorem loop_c_err_indep (total total' : Nat) (c : Checker) (done done' : Nat)
    (rs : List result) :
    (Check.loop tbl total c done rs).c = (Check.loop tbl total' c done' rs).c
      ∧ (Check.loop tbl total c done rs).err = (Check.loop tbl total' c done' rs).err := by
  induction rs generalizing c done done' with
  | nil => simp [loop_nil]
  | cons r rs ih =>
    cases hr : (Check.receive tbl c r).2.2
    · rw [loop_cons_continue _ _ _ _ _ _ hr, loop_cons_continue _ _ _ _ _ _ hr]
      exact ih _ _ _
    · rw [loop_cons_abort _ _ _ _ _ _ hr, loop_cons_abort _ _ _ _ _ _ hr]
      simp

/-- After a prefix that is taken without error the loop goes on from the drained state. -/
theorem loop_append (total : Nat) (c : Checker) (done : Nat) (p rs : List result)
    (h : (Check.loop tbl total c done p).err = none) :
    (Check.loop tbl total c done (p ++ rs)).c
        = (Check.loop tbl total (Check.drain tbl c p) done rs).c
      ∧ (Check.loop tbl total c done (p ++ rs)).err
        = (Check.loop tbl total (Check.drain tbl c p) done rs).err := by
  induction p generalizing c done with
  | nil => simp [drain_nil]
  | cons r p ih =>
    cases hr : (Check.receive tbl c r).2.2
    · rw [loop_cons_continue _ _ _ _ _ _ hr] at h
      simp only at h
      rw [List.cons_append, loop_cons_continue _ _ _ _ _ _ hr, drain_cons, ← receive_fst]
      simp only
      have := ih _ _ h
      rw [this.1, this.2]
      exact loop_c_err_indep tbl _ _ _ _ _ _
    · rw [loop_cons_abort _ _ _ _ _ _ hr] at h
      simp at h

/-- A loop that returns the error does so at a transport failure, after a prefix
that it has taken without error. -/
theorem loop_err_split (total : Nat) (c : Checker) (done : Nat) (rs : List result)
    (h : (Check.loop tbl total c done rs).err = some tooManyFailures) :
    ∃ p d e s, rs = p ++ result.failed d e :: s
      ∧ (Check.loop tbl total c done p).err = none
      ∧ c.MaxFailed < ((insert d (Check.drain tbl c p).Failed).card : Int) := by
  induction rs generalizing c done with
  | nil => simp [loop_nil] at h
  | cons r rs ih =>
    cases hr : (Check.receive tbl c r).2.2
    · rw [loop_cons_continue _ _ _ _ _ _ hr] at h
      simp only at h
      obtain ⟨p, d, e, s, rfl, hp, hc⟩ := ih _ _ h
      refine ⟨r :: p, d, e, s, rfl, ?_, ?_⟩
      · rw [loop_cons_continue _ _ _ _ _ _ hr]; exact hp
      · rw [drain_cons, ← receive_fst]
        rw [receive_fst, add_MaxFailed, ← receive_fst] at hc
        exact hc
    · rw [receive_abort] at hr
      cases r with
      | failed d e =>
        exact ⟨[], d, e, rs, rfl, by simp [loop_nil], by simpa [drain_nil, result.domain] using hr.2⟩
      | replied d res => exact absurd hr.1 (category_replied_ne_failed tbl _ _ _)

/-- While the loop has not returned the error, `Failed` has not outgrown `MaxFailed`. -/
theorem Failed_card_le_of_err_none (total : Nat) (c : Checker) (done : Nat)
    (rs : List result) (hM : (c.Failed.card : Int) ≤ c.MaxFailed)
    (h : (Check.loop tbl total c done rs).err = none) :
    ((Check.drain tbl c rs).Failed.card : Int) ≤ c.MaxFailed := by
  by_cases hf : ∃ r ∈ rs, Check.category tbl c.WantA r = .failed
  · by_contra hc
    have := (loop_err_iff tbl total c done rs).2 ⟨hf, by omega⟩
    rw [h] at this
    exact Option.noConfusion this
  · rw [Failed_drain_of_no_failure tbl c rs hf]; exact hM

end loop

/-! ## The check pass -/

section pass
variable (tbl : Int → String)

theorem worker_domain (Exchange : String → Except String Msg) (d : String) :
    (worker Exchange d).domain = d := by
  unfold worker
  cases Exchange (d ++ ".") <;> rfl

theorem map_domain_worker (Exchange : String → Except String Msg) (domains : List String) :
    (domains.map (worker Exchange)).map result.domain = domains := by
  induction domains with
  | nil => rfl
  | cons d ds ih => simp only [List.map_cons, worker_domain, ih]

theorem Check_eq_some (c : Checker) (domains : List String) (arrival : List result)
    (h : 0 < c.Parallel ∧ c.Parallel < 2 ^ 63) :
    Check tbl c domains arrival = some (Check.loop tbl domains.length c 0 arrival) := by
  have h1 : c.Parallel ≠ 0 := by omega
  have h2 : ¬ 2 ^ 63 ≤ c.Parallel := by omega
  simp only [Check, h1, h2, if_false, false_and]

theorem Fresh_of_empty (c : Checker) (x : String) (h1 : c.WrongResult = ∅)
    (h2 : c.NoResult = ∅) (h3 : c.Failed = ∅) (h4 : c.WrongOpcode = ∅) : c.Fresh x := by
  simp [Checker.Fresh, Checker.bucket, h1, h2, h3, h4]

end pass

/-! ## The retry loop -/

section retry
variable (tbl : Int → String) (order : Finset String → List String) (nets : Nat → Net)

theorem receive_Parallel (c : Checker) (r : result) :
    (Check.receive tbl c r).1.Parallel = c.Parallel := by
  rw [receive_fst, add_Parallel]

theorem loop_Parallel (total : Nat) (c : Checker) (done : Nat) (rs : List result) :
    (Check.loop tbl total c done rs).c.Parallel = c.Parallel := by
  induction rs generalizing c done with
  | nil => simp [loop_nil]
  | cons r rs ih =>
    cases hr : (Check.receive tbl c r).2.2
    · rw [loop_cons_continue _ _ _ _ _ _ hr]
      simp only
      rw [ih, receive_Parallel]
    · rw [loop_cons_abort _ _ _ _ _ _ hr]
      exact receive_Parallel tbl c r

/-- Whatever the loop returns, its state is the drained state of an initial segment
of the results. -/
theorem loop_c_prefix (total : Nat) (c : Checker) (done : Nat) (rs : List result) :
    ∃ q, q <+: rs ∧ (Check.loop tbl total c done rs).c = Check.drain tbl c q := by
  induction rs generalizing c done with
  | nil => exact ⟨[], List.prefix_refl _, by simp [loop_nil, drain_nil]⟩
  | cons r rs ih =>
    cases hr : (Check.receive tbl c r).2.2
    · obtain ⟨q, hq, hc⟩ := ih (Check.receive tbl c r).1 ((done + 1) % 2 ^ 64)
      refine ⟨r :: q, (List.prefix_cons_inj r).2 hq, ?_⟩
      rw [loop_cons_continue _ _ _ _ _ _ hr, drain_cons, ← receive_fst]
      exact hc
    · refine ⟨[r], ?_, ?_⟩
      · exact (List.prefix_cons_inj r).2 (List.nil_prefix)
      · rw [loop_cons_abort _ _ _ _ _ _ hr, drain_cons, drain_nil, ← receive_fst]

theorem Check_some_eq (c : Checker) (domains : List String) (arrival : List result)
    (run : Run) (h : Check tbl c domains arrival = some run) :
    run = Check.loop tbl domains.length c 0 arrival := by
  unfold Check at h
  split_ifs at h
  exact (Option.some.inj h).symm

/-- Every result of a pass is the result of the worker for one of the domains, when
the channel hands on what the workers send. -/
theorem mem_results (net : Net) (hnet : ∀ l, (net.arrive l).Perm l) (domains : List String)
    (r : result) (hr : r ∈ net.results domains) :
    r.domain ∈ domains ∧ r = worker net.Exchange r.domain := by
  have h1 : r ∈ domains.map (worker net.Exchange) := (hnet _).subset hr
  obtain ⟨d, hd, rfl⟩ := List.mem_map.1 h1
  rw [worker_domain]
  exact ⟨hd, rfl⟩

theorem worker_mem_results (net : Net) (hnet : ∀ l, (net.arrive l).Perm l)
    (domains : List String) (d : String) (hd : d ∈ domains) :
    worker net.Exchange d ∈ net.results domains :=
  (hnet _).symm.subset (List.mem_map_of_mem _ hd)

theorem RetryFailed_eq_some (net : Net) (c : Checker)
    (h : 0 < c.Parallel ∧ c.Parallel < 2 ^ 63) :
    RetryFailed tbl order net c
      = some (Check.loop tbl (order c.Failed).length { c with Failed := ∅ } 0
          (net.results (order c.Failed))) :=
  Check_eq_some tbl _ _ _ h

/-- A check pass that is entered with `Failed` cleared, over domains that were in
`Failed`, changes the membership of no other domain, and leaves in `Failed` only
domains that were there; when it returns no error, a domain of the slice is in
`Failed` again exactly if its new query failed. -/
theorem pass_restricted (net : Net) (hnet : ∀ l, (net.arrive l).Perm l) (c : Checker)
    (ds : List String) (hds : ∀ x ∈ ds, x ∈ c.Failed) (next : Run)
    (h : Check tbl { c with Failed := ∅ } ds (net.results ds) = some next) :
    next.c.Failed ⊆ c.Failed
      ∧ (∀ x, x ∉ c.Failed →
          (x ∈ next.c.WrongResult ↔ x ∈ c.WrongResult)
          ∧ (x ∈ next.c.NoResult ↔ x ∈ c.NoResult)
          ∧ ∀ code, x ∈ next.c.bucket code ↔ x ∈ c.bucket code)
      ∧ (next.err = none → ∀ d ∈ ds,
          (d ∈ next.c.Failed ↔
            Check.category tbl c.WantA (worker net.Exchange d) = .failed)) := by
  have hnext := Check_some_eq tbl _ _ _ _ h
  obtain ⟨q, hq, hc⟩ := loop_c_prefix tbl ds.length ({ c with Failed := ∅ } : Checker) 0
    (net.results ds)
  rw [← hnext] at hc
  have hin : ∀ r ∈ q, r.domain ∈ c.Failed := fun r hr =>
    hds _ (mem_results net hnet ds r (hq.subset hr)).1
  refine ⟨?_, ?_, ?_⟩
  · intro x hx
    rw [hc, mem_drain_Failed] at hx
    rcases hx with hx | ⟨r, hr, rfl, -⟩
    · exact absurd hx (Finset.not_mem_empty x)
    · exact hin r hr
  · intro x hx
    have hno : ∀ {k : Category}, ¬∃ r ∈ q, r.domain = x
        ∧ Check.category tbl ({ c with Failed := ∅ } : Checker).WantA r = k := by
      rintro k ⟨r, hr, rfl, -⟩
      exact hx (hin r hr)
    rw [hc]
    refine ⟨?_, ?_, fun code => ?_⟩
    · rw [mem_drain_WrongResult]
      exact ⟨fun h => h.elim id (fun h' => absurd h' hno), Or.inl⟩
    · rw [mem_drain_NoResult]
      exact ⟨fun h => h.elim id (fun h' => absurd h' hno), Or.inl⟩
    · rw [mem_drain_bucket]
      exact ⟨fun h => h.elim id (fun h' => absurd h' hno), Or.inl⟩
  · intro herr d hd
    rw [hnext] at herr ⊢
    rw [loop_c_of_err_none tbl _ _ _ _ herr, mem_drain_Failed]
    constructor
    · rintro (hx | ⟨r, hr, rfl, hk⟩)
      · exact absurd hx (Finset.not_mem_empty _)
      · rw [← (mem_results net hnet ds r hr).2]
        exact hk
    · intro hk
      exact Or.inr ⟨_, worker_mem_results net hnet ds d hd, worker_domain _ d, hk⟩

theorem err_eta (run : Run) (h : run.err = none) : ({ run with err := none } : Run) = run := by
  cases run
  simp_all

/-- The retry loop, entered before iteration `i` with the outcome of `i` retry
passes, ends with the outcome of `k` retry passes for some `k` between `i` and 3:
all earlier passes ended without error and left a non-empty `Failed`, and pass
`k` either returned an error, or left `Failed` empty, or was the third retry. -/
theorem attempts_passes (c : Checker) (domains : List String) (n i : Nat) (hi : i + n = 3)
    (run : Run) (hrun : passes tbl order nets c domains i = some run)
    (herr : run.err = none) (hpar : 0 < run.c.Parallel ∧ run.c.Parallel < 2 ^ 63)
    (hprev : ∀ j < i, ∃ prev, passes tbl order nets c domains j = some prev
      ∧ prev.err = none ∧ prev.c.Failed ≠ ∅) :
    ∃ k out, k ≤ 3 ∧ CheckRetry.attempts tbl order nets n run = some out
      ∧ passes tbl order nets c domains k = some out
      ∧ (∀ j < k, ∃ prev, passes tbl order nets c domains j = some prev
          ∧ prev.err = none ∧ prev.c.Failed ≠ ∅)
      ∧ (out.err ≠ none ∨ out.c.Failed = ∅ ∨ k = 3)
      ∧ (out.err = none ∨ out.err = some tooManyFailures) := by
  induction n generalizing i run with
  | zero =>
    refine ⟨i, run, by omega, ?_, hrun, hprev, Or.inr (Or.inr (by omega)), Or.inl herr⟩
    simp [CheckRetry.attempts, err_eta run herr]
  | succ n ih =>
    by_cases hF : run.c.Failed.card = 0
    · refine ⟨i, run, by omega, ?_, hrun, hprev, Or.inr (Or.inl (Finset.card_eq_zero.1 hF)),
        Or.inl herr⟩
      simp [CheckRetry.attempts, hF, err_eta run herr]
    · have h3 : 3 - n = i + 1 := by omega
      have hnext := RetryFailed_eq_some tbl order (nets (i + 1)) run.c hpar
      generalize hnx : Check.loop tbl (order run.c.Failed).length
        ({ run.c with Failed := ∅ } : Checker) 0 ((nets (i + 1)).results (order run.c.Failed))
        = next at hnext
      have hnpar : next.c.Parallel = run.c.Parallel := by
        rw [← hnx, loop_Parallel]
      have hnerr : next.err = none ∨ next.err = some tooManyFailures := by
        rw [← hnx]; exact loop_err tbl _ _ _ _
      have hpass : passes tbl order nets c domains (i + 1) = some (run.followedBy next) := by
        have hchk : Check tbl ({ run.c with Failed := ∅ } : Checker) (order run.c.Failed)
            ((nets (i + 1)).results (order run.c.Failed)) = some next := hnext
        simp [passes, hrun, hchk]
      have hprev' : ∀ j < i + 1, ∃ prev, passes tbl order nets c domains j = some prev
          ∧ prev.err = none ∧ prev.c.Failed ≠ ∅ := by
        intro j hj
        rcases Nat.lt_succ_iff_lt_or_eq.1 hj with hlt | rfl
        · exact hprev j hlt
        · exact ⟨run, hrun, herr, fun h => hF (by rw [h]; rfl)⟩
      by_cases he : next.err.isSome = true
      · refine ⟨i + 1, run.followedBy next, by omega, ?_, hpass, hprev', Or.inl ?_, hnerr⟩
        · simp [CheckRetry.attempts, hF, h3, hnext, he]
        · intro h0
          have : next.err = none := h0
          rw [this] at he
          exact Bool.noConfusion he
      · have hn0 : next.err = none := by
          cases hx : next.err with
          | none => rfl
          | some e => rw [hx] at he; exact absurd rfl he
        obtain ⟨k, out, hk, hout, hpk, hpre, hstop, herr'⟩ :=
          ih (i + 1) (by omega) (run.followedBy next) hpass hn0 (by
            show 0 < next.c.Parallel ∧ next.c.Parallel < 2 ^ 63
            rw [hnpar]; exact hpar) hprev'
        refine ⟨k, out, hk, ?_, hpk, hpre, hstop, herr'⟩
        simp [CheckRetry.attempts, hF, h3, hnext, hn0, hout]

/-- Two consecutive passes of the orchestration: the later one is a check pass over
the `Failed` set of the earlier one. -/
theorem passes_succ (c : Checker) (domains : List String) (j : Nat) (prev next : Run)
    (hp : passes tbl order nets c domains j = some prev)
    (hn : passes tbl order nets c domains (j + 1) = some next) :
    ∃ nx, Check tbl { prev.c with Failed := ∅ } (order prev.c.Failed)
        ((nets (j + 1)).results (order prev.c.Failed)) = some nx
      ∧ next.c = nx.c ∧ next.err = nx.err := by
  simp only [passes, hp] at hn
  cases hchk : Check tbl ({ prev.c with Failed := ∅ } : Checker) (order prev.c.Failed)
      ((nets (j + 1)).results (order prev.c.Failed)) with
  | none => rw [hchk] at hn; exact Option.noConfusion hn
  | some nx =>
    rw [hchk] at hn
    have := Option.some.inj hn
    subst this
    exact ⟨nx, rfl, rfl, rfl⟩

end retry

/-! ## The permit discipline: invariants -/

section sem

theorem countP_set (p : Nat → Bool) (l : List Nat) (i a b : Nat) (h : l[i]? = some a) :
    (l.set i b).countP p + (if p a then 1 else 0) = l.countP p + (if p b then 1 else 0) := by
  induction l generalizing i with
  | nil => simp at h
  | cons x l ih =>
    cases i with
    | zero =>
      simp only [List.getElem?_cons_zero, Option.some.injEq] at h
      subst h
      simp only [List.set_cons_zero, List.countP_cons]
      omega
    | succ i =>
      simp only [List.getElem?_cons_succ] at h
      have := ih i h
      simp only [List.set_cons_succ, List.countP_cons]
      omega

theorem getD_set (l : List Nat) (i j a b : Nat) (h : l[i]? = some a) :
    (l.set i b).getD j 0 = if j = i then b else l.getD j 0 := by
  have hi : i < l.length := by
    by_contra hc
    rw [List.getElem?_eq_none (by omega)] at h
    exact Option.noConfusion h
  by_cases hj : j = i
  · subst hj
    simp [List.getD_eq_getElem?_getD, hi]
  · have hj' : i ≠ j := fun e => hj e.symm
    simp [List.getD_eq_getElem?_getD, List.getElem?_set_ne hj', hj]

theorem Sem.events_append (s : Sem.State) (pcs : List Nat) (sem i j : Nat) (ev : Sem.Event) :
    Sem.events { sem := sem, pcs := pcs, trace := s.trace ++ [(i, ev)] } j
      = if j = i then Sem.events s j ++ [ev] else Sem.events s j := by
  by_cases hj : j = i
  · subst hj; simp [Sem.events]
  · have hj' : ¬ i = j := fun e => hj e.symm
    simp [Sem.events, hj, hj']

theorem Sem.take_succ_program (pc : Nat) (ev : Sem.Event) (h : Sem.program[pc]? = some ev) :
    Sem.program.take (pc + 1) = Sem.program.take pc ++ [ev] := by
  rw [List.take_succ, h]; rfl

/-- An enabled step of worker `i` that neither sends to nor receives from `sem`. -/
theorem Sem.Inv_advance (cap : Nat) (s : Sem.State) (i pc sem' : Nat) (ev : Sem.Event)
    (hinv : Sem.Inv cap s) (hpc : s.pcs[i]? = some pc) (hev : Sem.program[pc]? = some ev)
    (hsem : sem' + (if Sem.holds pc then 1 else 0) = s.sem + (if Sem.holds (pc + 1) then 1 else 0))
    (hcap : sem' ≤ cap) :
    Sem.Inv cap { sem := sem', pcs := s.pcs.set i (pc + 1), trace := s.trace ++ [(i, ev)] } := by
  obtain ⟨h1, h2, h3⟩ := hinv
  refine ⟨?_, hcap, fun j => ?_⟩
  · have := countP_set Sem.holds s.pcs i pc (pc + 1) hpc
    simp only [Sem.inFlight] at h1 ⊢
    omega
  · rw [Sem.events_append, getD_set _ _ _ _ _ hpc]
    by_cases hj : j = i
    · subst hj
      have hget : s.pcs.getD j 0 = pc := by simp [List.getD_eq_getElem?_getD, hpc]
      rw [if_pos rfl, if_pos rfl, h3 j, hget, Sem.take_succ_program pc ev hev]
    · rw [if_neg hj, if_neg hj, h3 j]

theorem Sem.Inv_step (cap : Nat) (s : Sem.State) (i : Nat) (hinv : Sem.Inv cap s) :
    Sem.Inv cap (Sem.step cap s i) := by
  unfold Sem.step
  cases hpc : s.pcs[i]? with
  | none => exact hinv
  | some pc =>
    simp only
    have hcount : Sem.holds pc = true → 1 ≤ s.sem := by
      intro hh
      rw [hinv.1, Sem.inFlight]
      have hi : i < s.pcs.length := by
        by_contra hc
        rw [List.getElem?_eq_none (by omega)] at hpc
        exact Option.noConfusion hpc
      have hmem : pc ∈ s.pcs := by
        rw [List.getElem?_eq_getElem hi] at hpc
        exact Option.some.inj hpc ▸ List.getElem_mem hi
      exact List.countP_pos_iff.2 ⟨pc, hmem, hh⟩
    rcases pc with _ | _ | _ | _ | _ | pc
    · simp only [Sem.program, List.getElem?_cons_zero]
      split_ifs with hlt
      · exact Sem.Inv_advance cap s i 0 _ _ hinv hpc rfl (by simp [Sem.holds]) (by omega)
      · exact hinv
    · exact Sem.Inv_advance cap s i 1 _ _ hinv hpc rfl (by simp [Sem.holds]) hinv.2.1
    · exact Sem.Inv_advance cap s i 2 _ _ hinv hpc rfl (by simp [Sem.holds]) hinv.2.1
    · exact Sem.Inv_advance cap s i 3 _ _ hinv hpc rfl (by simp [Sem.holds]) hinv.2.1
    · have := hcount (by simp [Sem.holds])
      simp only [Sem.program, List.getElem?_cons_succ, List.getElem?_cons_zero]
      rw [if_pos (by omega)]
      exact Sem.Inv_advance cap s i 4 _ _ hinv hpc rfl (by simp [Sem.holds]; omega)
        (by have := hinv.2.1; omega)
    · exact hinv

theorem Sem.Inv_init (cap n : Nat) : Sem.Inv cap (Sem.init n) := by
  refine ⟨?_, Nat.zero_le _, fun i => ?_⟩
  · symm
    show List.countP Sem.holds (Sem.init n).pcs = 0
    rw [List.countP_eq_zero]
    intro a ha
    simp only [Sem.init, List.mem_replicate] at ha
    simp [ha.2, Sem.holds]
  · have : (List.replicate n 0).getD i 0 = 0 := by
      simp only [List.getD_eq_getElem?_getD, List.getElem?_replicate]
      split <;> rfl
    simp [Sem.init, Sem.events, this]

theorem Sem.Inv_exec (cap : Nat) (s : Sem.State) (sched : List Nat) (hinv : Sem.Inv cap s) :
    Sem.Inv cap (Sem.exec cap s sched) := by
  induction sched generalizing s with
  | nil => exact hinv
  | cons i sched ih => exact ih _ (Sem.Inv_step cap s i hinv)

theorem Sem.exec_append (cap : Nat) (s : Sem.State) (sched : List Nat) (i : Nat) :
    Sem.exec cap s (sched ++ [i]) = Sem.step cap (Sem.exec cap s sched) i := by
  simp [Sem.exec]

theorem Sem.take_query (p p' : Nat)
    (h : Sem.program.take p' = Sem.program.take p ++ [Sem.Event.query]) : p = 1 := by
  rcases p with _ | _ | _ | _ | _ | p <;> rcases p' with _ | _ | _ | _ | _ | p' <;>
    simp [Sem.program] at h ⊢

theorem Sem.take_release (p p' : Nat)
    (h : Sem.program.take p' = Sem.program.take p ++ [Sem.Event.release]) : p = 4 := by
  rcases p with _ | _ | _ | _ | _ | p <;> rcases p' with _ | _ | _ | _ | _ | p' <;>
    simp [Sem.program] at h ⊢

theorem sum_map_set (f : Nat → Nat) (l : List Nat) (i a b : Nat) (h : l[i]? = some a) :
    ((l.set i b).map f).sum + f a = (l.map f).sum + f b := by
  induction l generalizing i with
  | nil => simp at h
  | cons x l ih =>
    cases i with
    | zero =>
      simp only [List.getElem?_cons_zero, Option.some.injEq] at h
      subst h
      simp only [List.set_cons_zero, List.map_cons, List.sum_cons]
      omega
    | succ i =>
      simp only [List.getElem?_cons_succ] at h
      have := ih i h
      simp only [List.set_cons_succ, List.map_cons, List.sum_cons]
      omega

theorem Sem.exec_concat (cap : Nat) (s : Sem.State) (a b : List Nat) :
    Sem.exec cap s (a ++ b) = Sem.exec cap (Sem.exec cap s a) b := by
  simp [Sem.exec]

theorem Sem.step_pcs_length (cap : Nat) (s : Sem.State) (i : Nat) :
    (Sem.step cap s i).pcs.length = s.pcs.length := by
  unfold Sem.step
  cases s.pcs[i]? with
  | none => rfl
  | some pc =>
    simp only
    cases Sem.program[pc]? with
    | none => rfl
    | some ev =>
      cases ev <;> simp only <;> first | (split_ifs <;> simp) | simp

theorem Sem.exec_pcs_length (cap : Nat) (s : Sem.State) (sched : List Nat) :
    (Sem.exec cap s sched).pcs.length = s.pcs.length := by
  induction sched generalizing s with
  | nil => rfl
  | cons i sched ih =>
    show (Sem.exec cap (Sem.step cap s i) sched).pcs.length = _
    rw [ih, Sem.step_pcs_length]

/-- A worker that has not returned takes its step when it is given a turn, unless
it is waiting for a permit while the channel is full. -/
theorem Sem.step_taken (cap : Nat) (s : Sem.State) (i pc : Nat) (hinv : Sem.Inv cap s)
    (hpc : s.pcs[i]? = some pc) (hlt : pc < 5) (hen : pc = 0 → s.sem < cap) :
    (Sem.step cap s i).pcs = s.pcs.set i (pc + 1) := by
  have hcount : Sem.holds pc = true → 1 ≤ s.sem := by
    intro hh
    rw [hinv.1, Sem.inFlight]
    have hi : i < s.pcs.length := by
      by_contra hc
      rw [List.getElem?_eq_none (by omega)] at hpc
      exact Option.noConfusion hpc
    have hmem : pc ∈ s.pcs := by
      rw [List.getElem?_eq_getElem hi] at hpc
      exact Option.some.inj hpc ▸ List.getElem_mem hi
    exact List.countP_pos_iff.2 ⟨pc, hmem, hh⟩
  unfold Sem.step
  rw [hpc]
  simp only
  rcases pc with _ | _ | _ | _ | _ | pc
  · simp only [Sem.program, List.getElem?_cons_zero]
    rw [if_pos (hen rfl)]
  · rfl
  · rfl
  · rfl
  · have := hcount (by simp [Sem.holds])
    simp only [Sem.program, List.getElem?_cons_succ, List.getElem?_cons_zero]
    rw [if_pos (by omega)]
  · omega

/-- No deadlock: while some worker has not returned and the channel has room for at
least one permit, some worker takes a step when it is given a turn. -/
theorem Sem.exists_enabled (cap : Nat) (s : Sem.State) (hcap : 1 ≤ cap)
    (hinv : Sem.Inv cap s) (hun : ∃ pc ∈ s.pcs, pc < 5) :
    ∃ i pc, s.pcs[i]? = some pc ∧ pc < 5
      ∧ (Sem.step cap s i).pcs = s.pcs.set i (pc + 1) := by
  obtain ⟨pc, hmem, hlt⟩ := hun
  obtain ⟨i, hi⟩ := List.mem_iff_getElem?.1 hmem
  by_cases hfree : pc = 0 → s.sem < cap
  · exact ⟨i, pc, hi, hlt, Sem.step_taken cap s i pc hinv hi hlt hfree⟩
  · have hfull : 1 ≤ Sem.inFlight s := by
      rw [← hinv.1]
      by_contra hc
      exact hfree (fun _ => by omega)
    obtain ⟨q, hq, hh⟩ := List.countP_pos_iff.1 hfull
    obtain ⟨j, hj⟩ := List.mem_iff_getElem?.1 hq
    have hq' : 1 ≤ q ∧ q ≤ 4 := by simpa [Sem.holds] using hh
    exact ⟨j, q, hj, by omega, Sem.step_taken cap s j q hinv hj (by omega) (by omega)⟩

/-- Every worker can run to its end: from every state that satisfies the invariant
there is a schedule after which all workers have returned. -/
theorem Sem.can_finish (cap : Nat) (hcap : 1 ≤ cap) (m : Nat) (s : Sem.State)
    (hinv : Sem.Inv cap s) (hm : Sem.todo s ≤ m) :
    ∃ more, ∀ pc ∈ (Sem.exec cap s more).pcs, 5 ≤ pc := by
  induction m generalizing s with
  | zero =>
    by_cases hun : ∃ pc ∈ s.pcs, pc < 5
    · obtain ⟨i, pc, hi, hlt, -⟩ := Sem.exists_enabled cap s hcap hinv hun
      have := sum_map_set (fun pc => 5 - pc) s.pcs i pc pc hi
      have hpos : 5 - pc ≤ Sem.todo s := by
        have hmem : pc ∈ s.pcs := List.mem_iff_getElem?.2 ⟨i, hi⟩
        exact List.single_le_sum (fun _ _ => Nat.zero_le _) _
          (List.mem_map_of_mem (fun pc => 5 - pc) hmem)
      omega
    · exact ⟨[], fun pc hpc => by
        by_contra hc
        exact hun ⟨pc, hpc, by omega⟩⟩
  | succ m ih =>
    by_cases hun : ∃ pc ∈ s.pcs, pc < 5
    · obtain ⟨i, pc, hi, hlt, hstep⟩ := Sem.exists_enabled cap s hcap hinv hun
      have hsum := sum_map_set (fun pc => 5 - pc) s.pcs i pc (pc + 1) hi
      have htodo : Sem.todo (Sem.step cap s i) ≤ m := by
        simp only [Sem.todo, hstep] at hm ⊢
        beta_reduce at hsum
        omega
      obtain ⟨more, hmore⟩ := ih (Sem.step cap s i) (Sem.Inv_step cap s i hinv) htodo
      exact ⟨i :: more, hmore⟩
    · exact ⟨[], fun pc hpc => by
        by_contra hc
        exact hun ⟨pc, hpc, by omega⟩⟩

/-- A turn either leaves the state as it is or advances the worker by one step. -/
theorem Sem.step_or (cap : Nat) (s : Sem.State) (i : Nat) :
    Sem.step cap s i = s ∨
      ∃ pc, s.pcs[i]? = some pc ∧ pc < 5 ∧ (Sem.step cap s i).pcs = s.pcs.set i (pc + 1) := by
  unfold Sem.step
  cases hpc : s.pcs[i]? with
  | none => exact Or.inl rfl
  | some pc =>
    simp only
    rcases pc with _ | _ | _ | _ | _ | pc
    · simp only [Sem.program, List.getElem?_cons_zero]
      split_ifs
      · exact Or.inr ⟨0, rfl, by omega, rfl⟩
      · exact Or.inl rfl
    · exact Or.inr ⟨1, rfl, by omega, rfl⟩
    · exact Or.inr ⟨2, rfl, by omega, rfl⟩
    · exact Or.inr ⟨3, rfl, by omega, rfl⟩
    · simp only [Sem.program, List.getElem?_cons_succ, List.getElem?_cons_zero]
      split_ifs
      · exact Or.inr ⟨4, rfl, by omega, rfl⟩
      · exact Or.inl rfl
    · exact Or.inl rfl

theorem Sem.todo_set (s : Sem.State) (i pc : Nat) (pcs : List Nat)
    (hpc : s.pcs[i]? = some pc) (hlt : pc < 5) (h : pcs = s.pcs.set i (pc + 1)) :
    (pcs.map (fun pc => 5 - pc)).sum + 1 = Sem.todo s := by
  have hsum := sum_map_set (fun pc => 5 - pc) s.pcs i pc (pc + 1) hpc
  beta_reduce at hsum
  rw [h, Sem.todo]
  omega

/-- The turns of a schedule never add to the steps still to take, and take at least
one of them when the schedule gives a turn to a worker that can step. -/
theorem Sem.todo_exec (cap : Nat) (sched : List Nat) (s : Sem.State) :
    Sem.todo (Sem.exec cap s sched) ≤ Sem.todo s
      ∧ ((∃ i ∈ sched, ∃ pc, s.pcs[i]? = some pc ∧ pc < 5
            ∧ (Sem.step cap s i).pcs = s.pcs.set i (pc + 1)) →
          Sem.todo (Sem.exec cap s sched) < Sem.todo s) := by
  induction sched generalizing s with
  | nil => exact ⟨Nat.le_refl _, fun ⟨i, hi, _⟩ => absurd hi (List.not_mem_nil i)⟩
  | cons j sched ih =>
    have hexec : Sem.exec cap s (j :: sched) = Sem.exec cap (Sem.step cap s j) sched := rfl
    rw [hexec]
    rcases Sem.step_or cap s j with hsame | ⟨pc, hpc, hlt, hset⟩
    · rw [hsame]
      refine ⟨(ih s).1, ?_⟩
      rintro ⟨i, hi, pc, hpc, hlt, hset⟩
      rcases List.mem_cons.1 hi with rfl | hi'
      · have h1 := Sem.todo_set s i pc _ hpc hlt hset
        rw [hsame] at h1
        have h2 : (s.pcs.map (fun pc => 5 - pc)).sum = Sem.todo s := rfl
        omega
      · exact (ih s).2 ⟨i, hi', pc, hpc, hlt, hset⟩
    · have h1 := Sem.todo_set s j pc _ hpc hlt hset
      have h2 : ((Sem.step cap s j).pcs.map (fun pc => 5 - pc)).sum
          = Sem.todo (Sem.step cap s j) := rfl
      have h3 := (ih (Sem.step cap s j)).1
      constructor
      · omega
      · intro _
        omega

/-- Fair rounds bring every worker to its end: after as many rounds as there are
steps still to take, each giving every worker a turn, all workers have returned. -/
theorem Sem.finish_rounds (cap n : Nat) (hcap : 1 ≤ cap) (rounds : List (List Nat))
    (s : Sem.State) (hinv : Sem.Inv cap s) (hlen : s.pcs.length = n)
    (hfair : ∀ b ∈ rounds, ∀ i < n, i ∈ b) (hm : Sem.todo s ≤ rounds.length) :
    ∀ pc ∈ (Sem.exec cap s rounds.flatten).pcs, 5 ≤ pc := by
  induction rounds generalizing s with
  | nil =>
    intro pc hpc
    by_contra hc
    have hpos : 5 - pc ≤ Sem.todo s :=
      List.single_le_sum (fun _ _ => Nat.zero_le _) _
        (List.mem_map_of_mem (fun pc => 5 - pc) hpc)
    simp only [List.length_nil] at hm
    omega
  | cons b rounds ih =>
    rw [List.flatten_cons, Sem.exec_concat]
    have hle := (Sem.todo_exec cap b s).1
    apply ih (Sem.exec cap s b) (Sem.Inv_exec cap s b hinv)
      (by rw [Sem.exec_pcs_length]; exact hlen)
      (fun b' hb' => hfair b' (List.mem_cons_of_mem _ hb'))
    simp only [List.length_cons] at hm
    by_cases hun : ∃ pc ∈ s.pcs, pc < 5
    · obtain ⟨i, pc, hi, hlt, hset⟩ := Sem.exists_enabled cap s hcap hinv hun
      have hin : i < n := by
        rw [← hlen]
        by_contra hc
        rw [List.getElem?_eq_none (by omega)] at hi
        exact Option.noConfusion hi
      have := (Sem.todo_exec cap b s).2
        ⟨i, hfair b (List.mem_cons_self _ _) i hin, pc, hi, hlt, hset⟩
      omega
    · have h0 : Sem.todo s = 0 := by
        apply List.sum_eq_zero
        intro x hx
        obtain ⟨pc, hpc, rfl⟩ := List.mem_map.1 hx
        have : ¬ pc < 5 := fun h => hun ⟨pc, hpc, h⟩
        omega
      omega

theorem Sem.todo_init (n : Nat) : Sem.todo (Sem.init n) = 5 * n := by
  simp [Sem.todo, Sem.init, Nat.mul_comm]

end sem

/-! ## What the code does where it departs from the specification -/

section actual
variable (tbl : Int → String)

theorem receive_Progress (c : Checker) (r : result) :
    (Check.receive tbl c r).1.Progress = c.Progress := by
  rw [receive_fst, add_Progress]

/-- With a callback set, a loop that ends without error on `n` results reports
`n + 1` times: once per result, and once more for the receive on the closed
channel, before it finds that the result is `nil`. -/
theorem loop_calls (total : Nat) (c : Checker) (done : Nat) (rs : List result)
    (hP : c.Progress = true) (hn : (Check.loop tbl total c done rs).err = none)
    (hlen : done + rs.length + 1 < 2 ^ 64) :
    (Check.loop tbl total c done rs).calls
      = (List.range (rs.length + 1)).map (fun i => (done + 1 + i, total)) := by
  induction rs generalizing c done with
  | nil =>
    have : (done + 1) % 2 ^ 64 = done + 1 := Nat.mod_eq_of_lt (by simpa using hlen)
    rw [loop_nil]
    simp only [Check.report, hP, if_true, this]
    rfl
  | cons r rs ih =>
    simp only [List.length_cons] at hlen
    have hmod : (done + 1) % 2 ^ 64 = done + 1 := Nat.mod_eq_of_lt (by omega)
    cases hr : (Check.receive tbl c r).2.2
    · rw [loop_cons_continue _ _ _ _ _ _ hr] at hn ⊢
      simp only at hn ⊢
      rw [hmod] at hn ⊢
      rw [ih _ _ (by rw [receive_Progress]; exact hP) hn (by omega)]
      simp only [Check.report, hP, if_true, List.length_cons]
      rw [List.range_succ_eq_map (rs.length + 1)]
      simp only [List.map_cons, List.map_map, List.singleton_append, add_zero]
      congr 1
      apply List.map_congr_left
      intro i _
      simp only [Function.comp, Nat.succ_eq_add_one]
      congr 1
      omega
    · rw [loop_cons_abort _ _ _ _ _ _ hr] at hn
      simp at hn

/-- For a non-empty category `display` writes the header, one member, and a
remainder computed against a counter that starts at five. -/
theorem display_cons (order : Finset String → List String) (t : String) (m : Finset String)
    (d : String) (ds : List String) (hm : m.card ≠ 0) (ho : order m = d :: ds) :
    Dump.display order t m
      = ([t ++ ":", " - " ++ d, "(and " ++ toString ((m.card : Int) - 6) ++ " more like this)"],
          true) := by
  simp [Dump.display, hm, ho, Dump.examples]

/-- The loop never reads the reply code: two replies that differ only in `Rcode`
are treated alike. -/
theorem receive_rcode_irrelevant (c : Checker) (d : String) (opcode rcode rcode' : Int)
    (answer : List RR) :
    Check.receive tbl c (.replied d ⟨opcode, rcode, answer⟩)
      = Check.receive tbl c (.replied d ⟨opcode, rcode', answer⟩) := rfl

/-- A reply whose header field `Opcode` is not zero goes to the bucket that the table
of reply code names has for that value. -/
theorem receive_opcode (c : Checker) (d : String) (res : Msg)
    (ho : res.Opcode ≠ RcodeSuccess) :
    Check.receive tbl c (.replied d res)
      = ({ c with WrongOpcode :=
            c.WrongOpcode.insert (tbl res.Opcode) (insert d (c.bucket (tbl res.Opcode))) },
          [], false) := by
  have h1 := receive_fst tbl c (.replied d res)
  have h2 := receive_replied_snd tbl c d res
  have h3 : Check.category tbl c.WantA (.replied d res) = .wrongOpcode (tbl res.Opcode) := by
    simp [Check.category, ho]
  rw [h3] at h1
  exact Prod.ext h1 h2

/-- A reply whose header field `Opcode` is zero and that has exactly one answer is
classified by that answer: an A record with the expected address raises the success
counter, anything else puts the domain into `WrongResult`. -/
theorem receive_single_answer (c : Checker) (d : String) (res : Msg) (ans : RR)
    (ho : res.Opcode = RcodeSuccess) (ha : res.Answer = [ans]) :
    Check.receive tbl c (.replied d res)
      = if ans.Rrtype = TypeA ∧ ans.A = c.WantA then
          ({ c with Okay := (c.Okay + 1) % 2 ^ 64 }, [], false)
        else ({ c with WrongResult := insert d c.WrongResult }, [], false) := by
  obtain ⟨op, rc, answer⟩ := res
  simp only at ho ha
  subst ho ha
  by_cases h : ans.Rrtype = TypeA ∧ ans.A = c.WantA <;> simp [Check.receive, h]

end actual

/-! ## Main results -/

/-- C1: on a checker freshly built by `New`, a pass over pairwise distinct domains
that drains every outcome without aborting puts each input domain into exactly one
category: the success counter and the sizes of `WrongResult`, `NoResult`, all
`WrongOpcode` buckets and `Failed` add up to the number of domains, these sets are
pairwise disjoint, and each of their members is an input domain. -/
theorem Check_partition (tbl : Int → String) (server wantA : String)
    (Exchange : String → Except String Msg) (domains : List String) (arrival : List result)
    (hlen : domains.length < 2 ^ 63) (hnd : domains.Nodup)
    (hperm : arrival.Perm (domains.map (worker Exchange))) :
    ∃ run, Check tbl (New server wantA) domains arrival = some run ∧
      (run.err = none →
        run.c.Okay + run.c.WrongResult.card + run.c.NoResult.card
            + (∑ code ∈ run.c.WrongOpcode.keys, (run.c.bucket code).card)
            + run.c.Failed.card = domains.length
        ∧ Disjoint run.c.WrongResult run.c.NoResult
        ∧ Disjoint run.c.WrongResult run.c.Failed
        ∧ Disjoint run.c.NoResult run.c.Failed
        ∧ (∀ code, Disjoint (run.c.bucket code) run.c.WrongResult
            ∧ Disjoint (run.c.bucket code) run.c.NoResult
            ∧ Disjoint (run.c.bucket code) run.c.Failed)
        ∧ (∀ code code', code ≠ code' → Disjoint (run.c.bucket code) (run.c.bucket code'))
        ∧ ∀ x, (x ∈ run.c.WrongResult ∨ x ∈ run.c.NoResult ∨ x ∈ run.c.Failed
            ∨ ∃ code, x ∈ run.c.bucket code) → x ∈ domains) := by
  refine ⟨_, Check_eq_some tbl _ _ _ (by simp [New]), fun herr => ?_⟩
  rw [loop_c_of_err_none tbl _ _ _ _ herr]
  have hdom : (arrival.map result.domain).Perm domains := by
    have := hperm.map result.domain
    rwa [map_domain_worker] at this
  have hnd' : (arrival.map result.domain).Nodup := hdom.nodup_iff.2 hnd
  have hlen' : arrival.length = domains.length := by
    simpa using hdom.length_eq
  have hfresh : ∀ x, (New server wantA).Fresh x := fun x =>
    Fresh_of_empty _ x rfl rfl rfl rfl
  have hone := fun x => AtMostOnce_drain tbl (New server wantA) arrival hnd' x (hfresh x)
  have htot := total_drain tbl (New server wantA) arrival hnd' (fun r _ => hfresh _)
    (by simp only [New]; omega)
  refine ⟨?_, ?_, ?_, ?_, ?_, ?_, ?_⟩
  · have h0 : (New server wantA).total = 0 := by
      simp [Checker.total, New]
    rw [h0, zero_add, hlen'] at htot
    exact htot
  · exact Finset.disjoint_left.2 fun x a b => (hone x).1 ⟨a, b⟩
  · exact Finset.disjoint_left.2 fun x a b => (hone x).2.1 ⟨a, b⟩
  · exact Finset.disjoint_left.2 fun x a b => (hone x).2.2.1 ⟨a, b⟩
  · intro code
    refine ⟨?_, ?_, ?_⟩
    · exact Finset.disjoint_left.2 fun x a => ((hone x).2.2.2.1 code a).1
    · exact Finset.disjoint_left.2 fun x a => ((hone x).2.2.2.1 code a).2.1
    · exact Finset.disjoint_left.2 fun x a => ((hone x).2.2.2.1 code a).2.2
  · intro code code' hne
    exact Finset.disjoint_left.2 fun x a b => hne ((hone x).2.2.2.2 code code' a b)
  · intro x hx
    have hmem : ∀ {k : Category}, (∃ r ∈ arrival, r.domain = x
        ∧ Check.category tbl (New server wantA).WantA r = k) → x ∈ domains := by
      rintro k ⟨r, hr, rfl, -⟩
      exact hdom.subset (List.mem_map_of_mem _ hr)
    have hF := (hfresh x)
    rcases hx with hx | hx | hx | ⟨code, hx⟩
    · rw [mem_drain_WrongResult] at hx
      exact hx.elim (fun h => absurd h hF.1) hmem
    · rw [mem_drain_NoResult] at hx
      exact hx.elim (fun h => absurd h hF.2.1) hmem
    · rw [mem_drain_Failed] at hx
      exact hx.elim (fun h => absurd h hF.2.2.1) hmem
    · rw [mem_drain_bucket] at hx
      exact hx.elim (fun h => absurd h (hF.2.2.2 code)) hmem

/-- C5: in a pass entered with at most `MaxFailed` domains in `Failed`, `Check`
returns the abort error if and only if the results split into a prefix that the
loop takes without error and a transport failure that brings `Failed` above
`MaxFailed`; it returns at that failure: the state is the one the prefix left,
with the failed domain added to `Failed`, which then has exactly `MaxFailed + 1`
members, whatever arrives afterwards.  No other error is returned. -/
theorem Check_abort (tbl : Int → String) (c : Checker) (domains : List String)
    (arrival : List result) (hpar : 0 < c.Parallel ∧ c.Parallel < 2 ^ 63)
    (hM : (c.Failed.card : Int) ≤ c.MaxFailed) :
    ∃ run, Check tbl c domains arrival = some run
      ∧ (run.err = none ∨ run.err = some tooManyFailures)
      ∧ (run.err = some tooManyFailures ↔
          ∃ p d e s, arrival = p ++ result.failed d e :: s
            ∧ (Check.loop tbl domains.length c 0 p).err = none
            ∧ c.MaxFailed
              < ((insert d (Check.loop tbl domains.length c 0 p).c.Failed).card : Int))
      ∧ ∀ p d e s, arrival = p ++ result.failed d e :: s →
          (Check.loop tbl domains.length c 0 p).err = none →
          c.MaxFailed
            < ((insert d (Check.loop tbl domains.length c 0 p).c.Failed).card : Int) →
          run.c = { (Check.loop tbl domains.length c 0 p).c with
                    Failed := insert d (Check.loop tbl domains.length c 0 p).c.Failed }
            ∧ run.err = some tooManyFailures
            ∧ (run.c.Failed.card : Int) = c.MaxFailed + 1 := by
  refine ⟨_, Check_eq_some tbl _ _ _ hpar, loop_err tbl _ _ _ _, ?_, ?_⟩
  · constructor
    · intro h
      obtain ⟨p, d, e, s, hs, hp, hc⟩ := loop_err_split tbl _ _ _ _ h
      refine ⟨p, d, e, s, hs, hp, ?_⟩
      rw [loop_c_of_err_none tbl _ _ _ _ hp]
      exact hc
    · rintro ⟨p, d, e, s, rfl, hp, hc⟩
      rw [loop_c_of_err_none tbl _ _ _ _ hp] at hc
      rw [(loop_append tbl _ _ _ _ _ hp).2]
      have hflag : (Check.receive tbl (Check.drain tbl c p) (result.failed d e)).2.2 = true := by
        rw [receive_abort]
        exact ⟨rfl, by simpa [result.domain] using hc⟩
      rw [loop_cons_abort _ _ _ _ _ _ hflag]
  · rintro p d e s rfl hp hc
    have hle := Failed_card_le_of_err_none tbl _ _ _ _ hM hp
    rw [loop_c_of_err_none tbl _ _ _ _ hp] at hc ⊢
    have hflag : (Check.receive tbl (Check.drain tbl c p) (result.failed d e)).2.2 = true := by
      rw [receive_abort]
      exact ⟨rfl, by simpa [result.domain] using hc⟩
    rw [(loop_append tbl _ _ _ _ _ hp).1, (loop_append tbl _ _ _ _ _ hp).2,
      loop_cons_abort _ _ _ _ _ _ hflag]
    refine ⟨rfl, rfl, ?_⟩
    have h1 := Finset.card_insert_le d (Check.drain tbl c p).Failed
    have h2 : (Check.receive tbl (Check.drain tbl c p) (result.failed d e)).1.Failed
        = insert d (Check.drain tbl c p).Failed := rfl
    simp only [h2]
    omega

/-- C10: the outcome of a pass does not depend on the order in which the results
arrive: for two orderings of the same results, the pass returns the abort error
for one if and only if it does for the other, and when it does not, the two final
states are equal. -/
theorem Check_order_independent (tbl : Int → String) (c : Checker)
    (Exchange : String → Except String Msg) (domains : List String)
    (arrival arrival' : List result)
    (hpar : 0 < c.Parallel ∧ c.Parallel < 2 ^ 63)
    (h : arrival.Perm (domains.map (worker Exchange)))
    (h' : arrival'.Perm (domains.map (worker Exchange))) :
    ∃ run run', Check tbl c domains arrival = some run
      ∧ Check tbl c domains arrival' = some run'
      ∧ (run.err = some tooManyFailures ↔ run'.err = some tooManyFailures)
      ∧ (run.err = none → run'.err = none ∧ run'.c = run.c) := by
  have hp : arrival.Perm arrival' := h.trans h'.symm
  have hiff : (Check.loop tbl domains.length c 0 arrival).err = some tooManyFailures ↔
      (Check.loop tbl domains.length c 0 arrival').err = some tooManyFailures := by
    rw [loop_err_iff, loop_err_iff, drain_perm tbl c hp]
    constructor
    · rintro ⟨⟨r, hr, hk⟩, hc⟩; exact ⟨⟨r, hp.subset hr, hk⟩, hc⟩
    · rintro ⟨⟨r, hr, hk⟩, hc⟩; exact ⟨⟨r, hp.symm.subset hr, hk⟩, hc⟩
  refine ⟨_, _, Check_eq_some tbl _ _ _ hpar, Check_eq_some tbl _ _ _ hpar, hiff, fun hn => ?_⟩
  have hn' : (Check.loop tbl domains.length c 0 arrival').err = none := by
    rcases loop_err tbl domains.length c 0 arrival' with h0 | h0
    · exact h0
    · rw [hiff.2 h0] at hn
      exact Option.noConfusion hn
  refine ⟨hn', ?_⟩
  rw [loop_c_of_err_none tbl _ _ _ _ hn, loop_c_of_err_none tbl _ _ _ _ hn',
    drain_perm tbl c hp]

/-- C6: when `Failed` is disjoint from the other category sets and the success
counter is at least `|Failed|` below its largest value, a retry pass that returns
no error has re-examined exactly the domains that were in `Failed`: the new
`Failed` is a subset of the old one, every domain of the old `Failed` is in the
one category set its new outcome selects (in none when it resolved as expected) and
so in at most one, the success counter has not decreased, `WrongResult`, `NoResult`
and every `WrongOpcode` bucket keep their members and gain none from outside the old
`Failed`, and the number of domains accounted for is unchanged.  The hypotheses
`hord` and `hnet` say that `range` yields every key once and that the channel hands
on what the workers send. -/
theorem RetryFailed_reclassifies (tbl : Int → String) (order : Finset String → List String)
    (net : Net) (c : Checker)
    (hpar : 0 < c.Parallel ∧ c.Parallel < 2 ^ 63)
    (hord : ∀ s, (order s).Nodup ∧ ∀ x, x ∈ order s ↔ x ∈ s)
    (hnet : ∀ l, (net.arrive l).Perm l)
    (hdis : Disjoint c.Failed c.WrongResult ∧ Disjoint c.Failed c.NoResult
      ∧ ∀ code, Disjoint c.Failed (c.bucket code))
    (hok : c.Okay + c.Failed.card < 2 ^ 64) :
    ∃ run, RetryFailed tbl order net c = some run ∧
      (run.err = none →
        run.c.Failed ⊆ c.Failed
        ∧ (∀ d ∈ c.Failed,
            (d ∈ run.c.Failed ↔ Check.category tbl c.WantA (worker net.Exchange d) = .failed)
            ∧ (d ∈ run.c.WrongResult ↔
                Check.category tbl c.WantA (worker net.Exchange d) = .wrongResult)
            ∧ (d ∈ run.c.NoResult ↔
                Check.category tbl c.WantA (worker net.Exchange d) = .noResult)
            ∧ (∀ code, d ∈ run.c.bucket code ↔
                Check.category tbl c.WantA (worker net.Exchange d) = .wrongOpcode code)
            ∧ run.c.AtMostOnce d)
        ∧ c.Okay ≤ run.c.Okay
        ∧ c.WrongResult ⊆ run.c.WrongResult
        ∧ c.NoResult ⊆ run.c.NoResult
        ∧ (∀ code, c.bucket code ⊆ run.c.bucket code)
        ∧ (∀ x, x ∉ c.Failed →
            (x ∈ run.c.WrongResult ↔ x ∈ c.WrongResult)
            ∧ (x ∈ run.c.NoResult ↔ x ∈ c.NoResult)
            ∧ ∀ code, x ∈ run.c.bucket code ↔ x ∈ c.bucket code)
        ∧ run.c.total = c.total) := by
  obtain ⟨hnd, hmem⟩ := hord c.Failed
  obtain ⟨hd1, hd2, hd3⟩ := hdis
  have hperm : (net.results (order c.Failed)).Perm
      ((order c.Failed).map (worker net.Exchange)) := hnet _
  show ∃ run, Check tbl ({ c with Failed := ∅ } : Checker) (order c.Failed)
    (net.results (order c.Failed)) = some run ∧ _
  generalize net.results (order c.Failed) = arrival at hperm ⊢
  refine ⟨_, Check_eq_some tbl _ _ _ hpar, fun herr => ?_⟩
  rw [loop_c_of_err_none tbl _ _ _ _ herr]
  have hdom : (arrival.map result.domain).Perm (order c.Failed) := by
    have := hperm.map result.domain
    rwa [map_domain_worker] at this
  have hnd' : (arrival.map result.domain).Nodup := hdom.nodup_iff.2 hnd
  have hcard : (order c.Failed).length = c.Failed.card := by
    rw [← List.toFinset_card_of_nodup hnd]
    congr 1
    ext x
    simp [hmem]
  have hlen : arrival.length = c.Failed.card := by
    rw [← hcard]; simpa using hdom.length_eq
  have hfresh : ∀ d ∈ c.Failed, ({ c with Failed := ∅ } : Checker).Fresh d := by
    intro d hd
    refine ⟨Finset.disjoint_left.1 hd1 hd, Finset.disjoint_left.1 hd2 hd,
      Finset.not_mem_empty d, fun code => ?_⟩
    exact Finset.disjoint_left.1 (hd3 code) hd
  have hin : ∀ r ∈ arrival, r.domain ∈ c.Failed := fun r hr =>
    (hmem _).1 (hdom.subset (List.mem_map_of_mem _ hr))
  have huniq : ∀ d ∈ c.Failed, ∀ k : Category,
      (∃ r ∈ arrival, r.domain = d
          ∧ Check.category tbl ({ c with Failed := ∅ } : Checker).WantA r = k)
        ↔ Check.category tbl c.WantA (worker net.Exchange d) = k := by
    intro d hd k
    have hw : worker net.Exchange d ∈ arrival :=
      hperm.symm.subset (List.mem_map_of_mem _ ((hmem d).2 hd))
    constructor
    · rintro ⟨r, hr, hrd, hk⟩
      have := eq_of_domain_eq hnd' hr hw (hrd.trans (worker_domain net.Exchange d).symm)
      subst this
      exact hk
    · intro hk
      exact ⟨_, hw, worker_domain net.Exchange d, hk⟩
  refine ⟨?_, ?_, ?_, ?_, ?_, ?_, ?_, ?_⟩
  · intro x hx
    rw [mem_drain_Failed] at hx
    rcases hx with hx | ⟨r, hr, rfl, -⟩
    · exact absurd hx (Finset.not_mem_empty x)
    · exact hin r hr
  · intro d hd
    obtain ⟨f1, f2, f3, f4⟩ := hfresh d hd
    refine ⟨?_, ?_, ?_, fun code => ?_, AtMostOnce_drain tbl _ arrival hnd' d (hfresh d hd)⟩
    · rw [mem_drain_Failed, huniq d hd]; simp
    · rw [mem_drain_WrongResult, huniq d hd]; simpa using fun h => absurd h f1
    · rw [mem_drain_NoResult, huniq d hd]; simpa using fun h => absurd h f2
    · rw [mem_drain_bucket, huniq d hd]
      have := f4 code
      constructor
      · rintro (h | h)
        · exact absurd h this
        · exact h
      · exact Or.inr
  · exact (Okay_drain tbl ({ c with Failed := ∅ } : Checker) arrival
      (by rw [hlen]; exact hok)).1
  · intro x hx; rw [mem_drain_WrongResult]; exact Or.inl hx
  · intro x hx; rw [mem_drain_NoResult]; exact Or.inl hx
  · intro code x hx; rw [mem_drain_bucket]; exact Or.inl hx
  · intro x hx
    have hno : ∀ {k : Category}, ¬∃ r ∈ arrival, r.domain = x
        ∧ Check.category tbl ({ c with Failed := ∅ } : Checker).WantA r = k := by
      rintro k ⟨r, hr, rfl, -⟩
      exact hx (hin r hr)
    refine ⟨?_, ?_, fun code => ?_⟩
    · rw [mem_drain_WrongResult]
      exact ⟨fun h => h.elim id (fun h' => absurd h' hno), Or.inl⟩
    · rw [mem_drain_NoResult]
      exact ⟨fun h => h.elim id (fun h' => absurd h' hno), Or.inl⟩
    · rw [mem_drain_bucket]
      exact ⟨fun h => h.elim id (fun h' => absurd h' hno), Or.inl⟩
  · rw [total_drain tbl _ arrival hnd' (fun r hr => hfresh _ (hin r hr))
      (by rw [hlen]; exact hok), hlen]
    simp [Checker.total, Checker.bucket]

/-- C7: `CheckRetry` runs the initial pass and then `k` retry passes for some
`k ≤ 3` and returns what the last of them left.  Every pass before the last
returned no error and left `Failed` non-empty, and the last pass either returned
the abort error (which is then the result, with no further attempt), or left
`Failed` empty, or was the third retry; in particular no retry pass runs when the
first pass leaves `Failed` empty, and the state is then the one the first pass
left.  Each retry pass is restricted to the `Failed` set at that moment: it leaves
in `Failed` only domains that were there, changes the membership of no domain
outside it in any other set, and, when it returns no error, a domain of that set is
in `Failed` again exactly if its new query failed.  The hypotheses `hord` and `hnet`
say that `range` yields every key once and that the channel hands on what the
workers send. -/
theorem CheckRetry_passes (tbl : Int → String) (order : Finset String → List String)
    (nets : Nat → Net) (c : Checker) (domains : List String)
    (hpar : 0 < c.Parallel ∧ c.Parallel < 2 ^ 63)
    (hord : ∀ s, (order s).Nodup ∧ ∀ x, x ∈ order s ↔ x ∈ s)
    (hnet : ∀ j l, ((nets j).arrive l).Perm l) :
    ∃ k out, k ≤ 3 ∧ CheckRetry tbl order nets c domains = some out
      ∧ passes tbl order nets c domains k = some out
      ∧ (∀ j < k, ∃ prev, passes tbl order nets c domains j = some prev
          ∧ prev.err = none ∧ prev.c.Failed ≠ ∅)
      ∧ (out.err ≠ none ∨ out.c.Failed = ∅ ∨ k = 3)
      ∧ (out.err = none ∨ out.err = some tooManyFailures)
      ∧ (∀ first, Check tbl c domains ((nets 0).results domains) = some first →
          first.err = none → first.c.Failed = ∅ → k = 0 ∧ out = first)
      ∧ ∀ j < k, ∀ prev next, passes tbl order nets c domains j = some prev →
          passes tbl order nets c domains (j + 1) = some next →
          next.c.Failed ⊆ prev.c.Failed
            ∧ (∀ x, x ∉ prev.c.Failed →
                (x ∈ next.c.WrongResult ↔ x ∈ prev.c.WrongResult)
                ∧ (x ∈ next.c.NoResult ↔ x ∈ prev.c.NoResult)
                ∧ ∀ code, x ∈ next.c.bucket code ↔ x ∈ prev.c.bucket code)
            ∧ (next.err = none → ∀ d ∈ prev.c.Failed,
                (d ∈ next.c.Failed ↔
                  Check.category tbl prev.c.WantA (worker (nets (j + 1)).Exchange d)
                    = .failed)) := by
  have h0 := Check_eq_some tbl c domains ((nets 0).results domains) hpar
  have hp0 : passes tbl order nets c domains 0
      = some (Check.loop tbl domains.length c 0 ((nets 0).results domains)) := h0
  have hrestr : ∀ j, ∀ prev next, passes tbl order nets c domains j = some prev →
      passes tbl order nets c domains (j + 1) = some next →
      next.c.Failed ⊆ prev.c.Failed
        ∧ (∀ x, x ∉ prev.c.Failed →
            (x ∈ next.c.WrongResult ↔ x ∈ prev.c.WrongResult)
            ∧ (x ∈ next.c.NoResult ↔ x ∈ prev.c.NoResult)
            ∧ ∀ code, x ∈ next.c.bucket code ↔ x ∈ prev.c.bucket code)
        ∧ (next.err = none → ∀ d ∈ prev.c.Failed,
            (d ∈ next.c.Failed ↔
              Check.category tbl prev.c.WantA (worker (nets (j + 1)).Exchange d)
                = .failed)) := by
    intro j prev next hp hn
    obtain ⟨nx, hchk, hc, he⟩ := passes_succ tbl order nets c domains j prev next hp hn
    have hmem := (hord prev.c.Failed).2
    obtain ⟨r1, r2, r3⟩ := pass_restricted tbl (nets (j + 1)) (hnet (j + 1)) prev.c
      (order prev.c.Failed) (fun x hx => (hmem x).1 hx) nx hchk
    rw [hc, he]
    exact ⟨r1, r2, fun h d hd => r3 h d ((hmem d).2 hd)⟩
  have hfirst : ∀ k out, passes tbl order nets c domains k = some out →
      (∀ j < k, ∃ prev, passes tbl order nets c domains j = some prev
          ∧ prev.err = none ∧ prev.c.Failed ≠ ∅) →
      ∀ first, Check tbl c domains ((nets 0).results domains) = some first →
        first.err = none → first.c.Failed = ∅ → k = 0 ∧ out = first := by
    intro k out hk hpre first hf _ hempty
    have hk0 : k = 0 := by
      by_contra hne
      obtain ⟨prev, hprev, -, hF⟩ := hpre 0 (Nat.pos_of_ne_zero hne)
      have : passes tbl order nets c domains 0 = some first := hf
      rw [this] at hprev
      exact hF (Option.some.inj hprev ▸ hempty)
    subst hk0
    have : passes tbl order nets c domains 0 = some first := hf
    rw [this] at hk
    exact ⟨rfl, (Option.some.inj hk).symm⟩
  cases he : (Check.loop tbl domains.length c 0 ((nets 0).results domains)).err with
  | some e =>
    have hpre : ∀ j < 0, ∃ prev, passes tbl order nets c domains j = some prev
        ∧ prev.err = none ∧ prev.c.Failed ≠ ∅ := fun j hj => absurd hj (Nat.not_lt_zero j)
    refine ⟨0, _, by omega, ?_, hp0, hpre, Or.inl (by rw [he]; simp), loop_err tbl _ _ _ _,
      hfirst 0 _ hp0 hpre, fun j _ => hrestr j⟩
    simp [CheckRetry, h0, he]
  | none =>
    obtain ⟨k, out, hk, hout, hpk, hpre, hstop, herr⟩ :=
      attempts_passes tbl order nets c domains 3 0 rfl _ hp0 he
        (by rw [loop_Parallel]; exact hpar) (fun j hj => absurd hj (Nat.not_lt_zero j))
    refine ⟨k, out, hk, ?_, hpk, hpre, hstop, herr, hfirst k out hpk hpre,
      fun j _ => hrestr j⟩
    simp [CheckRetry, h0, he, hout]

/-- C9: in every state the workers can reach, for every number of workers, every
capacity of `sem` and every schedule, the number of workers that hold a permit is
the number of elements in the channel and at most the capacity.  Every worker has
taken an initial segment of acquire, query, deliver, signal, release: a worker that
issues its query holds a permit before and after that step, and a worker that
releases has delivered its result, has not released before, and holds no permit
afterwards.  With a capacity of at least one every permit is given back: after
any schedule, once `5 * n` further rounds have each given every worker a turn, each
worker has taken all five steps, the release exactly once and after the delivery,
and no permit is held. -/
theorem Sem.inFlight_le_cap (cap n : Nat) (sched : List Nat) :
    Sem.inFlight (Sem.exec cap (Sem.init n) sched) ≤ cap
      ∧ Sem.inFlight (Sem.exec cap (Sem.init n) sched) = (Sem.exec cap (Sem.init n) sched).sem
      ∧ (∀ i, Sem.events (Sem.exec cap (Sem.init n) sched) i
          = [Sem.Event.acquire, Sem.Event.query, Sem.Event.deliver, Sem.Event.signal,
              Sem.Event.release].take ((Sem.exec cap (Sem.init n) sched).pcs.getD i 0))
      ∧ (∀ i, Sem.events (Sem.step cap (Sem.exec cap (Sem.init n) sched) i) i
            = Sem.events (Sem.exec cap (Sem.init n) sched) i ++ [Sem.Event.query] →
          Sem.holds ((Sem.exec cap (Sem.init n) sched).pcs.getD i 0) = true
            ∧ Sem.holds ((Sem.step cap (Sem.exec cap (Sem.init n) sched) i).pcs.getD i 0)
              = true)
      ∧ (∀ i, Sem.events (Sem.step cap (Sem.exec cap (Sem.init n) sched) i) i
            = Sem.events (Sem.exec cap (Sem.init n) sched) i ++ [Sem.Event.release] →
          Sem.Event.deliver ∈ Sem.events (Sem.exec cap (Sem.init n) sched) i
            ∧ Sem.Event.release ∉ Sem.events (Sem.exec cap (Sem.init n) sched) i
            ∧ Sem.holds ((Sem.exec cap (Sem.init n) sched).pcs.getD i 0) = true
            ∧ Sem.holds ((Sem.step cap (Sem.exec cap (Sem.init n) sched) i).pcs.getD i 0)
              = false)
      ∧ (1 ≤ cap → ∀ rounds : List (List Nat), (∀ b ∈ rounds, ∀ i < n, i ∈ b) →
          5 * n ≤ rounds.length →
          (∀ i < n, Sem.events (Sem.exec cap (Sem.init n) (sched ++ rounds.flatten)) i
            = [Sem.Event.acquire, Sem.Event.query, Sem.Event.deliver, Sem.Event.signal,
                Sem.Event.release])
          ∧ (∀ i < n,
              (Sem.events (Sem.exec cap (Sem.init n) (sched ++ rounds.flatten)) i).count
                Sem.Event.release = 1)
          ∧ Sem.inFlight (Sem.exec cap (Sem.init n) (sched ++ rounds.flatten)) = 0) := by
  have hinv := Sem.Inv_exec cap (Sem.init n) sched (Sem.Inv_init cap n)
  have hstep := fun i => Sem.Inv_step cap _ i hinv
  have hlen0 : (Sem.exec cap (Sem.init n) sched).pcs.length = n := by
    rw [Sem.exec_pcs_length]
    simp [Sem.init]
  have htodo : Sem.todo (Sem.exec cap (Sem.init n) sched) ≤ 5 * n := by
    have := (Sem.todo_exec cap sched (Sem.init n)).1
    rwa [Sem.todo_init] at this
  have hfin := fun hcap rounds hfair (hr : 5 * n ≤ List.length rounds) =>
    Sem.finish_rounds cap n hcap rounds _ hinv hlen0 hfair (Nat.le_trans htodo hr)
  obtain ⟨h1, h2, h3⟩ := hinv
  refine ⟨by rw [← h1]; exact h2, h1.symm, h3, fun i h => ?_, fun i h => ?_,
    fun hcap rounds hfair hr => ?_⟩
  · rw [(hstep i).2.2 i, h3 i] at h
    have hp := Sem.take_query _ _ h
    rw [hp] at h
    have hp' : (Sem.step cap (Sem.exec cap (Sem.init n) sched) i).pcs.getD i 0 = 2 := by
      generalize (Sem.step cap (Sem.exec cap (Sem.init n) sched) i).pcs.getD i 0 = q at h
      rcases q with _ | _ | _ | _ | _ | q <;> simp [Sem.program] at h ⊢
    rw [hp, hp']
    exact ⟨rfl, rfl⟩
  · rw [(hstep i).2.2 i, h3 i] at h
    have hp := Sem.take_release _ _ h
    rw [hp] at h
    have hp' : 5 ≤ (Sem.step cap (Sem.exec cap (Sem.init n) sched) i).pcs.getD i 0 := by
      generalize (Sem.step cap (Sem.exec cap (Sem.init n) sched) i).pcs.getD i 0 = q at h
      rcases q with _ | _ | _ | _ | _ | q <;> simp [Sem.program] at h ⊢
    rw [h3 i, hp]
    refine ⟨by simp [Sem.program], by simp [Sem.program], rfl, ?_⟩
    simp only [Sem.holds, decide_eq_false_iff_not]
    omega
  · have hmore := hfin hcap rounds hfair hr
    rw [← Sem.exec_concat] at hmore
    have hinv' := Sem.Inv_exec cap (Sem.init n) (sched ++ rounds.flatten) (Sem.Inv_init cap n)
    have hlen : (Sem.exec cap (Sem.init n) (sched ++ rounds.flatten)).pcs.length = n := by
      rw [Sem.exec_pcs_length]
      simp [Sem.init]
    have hall : ∀ i < n, Sem.events (Sem.exec cap (Sem.init n) (sched ++ rounds.flatten)) i
        = [Sem.Event.acquire, Sem.Event.query, Sem.Event.deliver, Sem.Event.signal,
            Sem.Event.release] := by
      intro i hi
      have hi' : i < (Sem.exec cap (Sem.init n) (sched ++ rounds.flatten)).pcs.length := by
        omega
      have hge : 5 ≤ (Sem.exec cap (Sem.init n) (sched ++ rounds.flatten)).pcs.getD i 0 := by
        rw [List.getD_eq_getElem _ _ hi']
        exact hmore _ (List.getElem_mem hi')
      rw [hinv'.2.2 i]
      exact List.take_of_length_le (by simpa [Sem.program] using hge)
    refine ⟨hall, fun i hi => ?_, ?_⟩
    · rw [hall i hi]
      decide
    · rw [Sem.inFlight, List.countP_eq_zero]
      intro pc hpc
      have := hmore pc hpc
      simp only [Sem.holds, decide_eq_true_eq, not_and, not_le]
      omega

/-- C2: a reply with the reply code 3, which the table names NXDOMAIN, the opcode 0
of an ordinary answer and no answer record is put into `NoResult`; the map
`WrongOpcode` stays empty and has no bucket for NXDOMAIN.  The loop compares the
field `Opcode` of the header, not `Rcode`, with `dns.RcodeSuccess`. -/
theorem Check_nxdomain_lands_in_NoResult :
    (worker sampleExchange "gone.example" = result.replied "gone.example" ⟨0, 3, []⟩)
      ∧ dns.RcodeToString 3 = "NXDOMAIN"
      ∧ (Check dns.RcodeToString mainChecker ["gone.example"]
          [worker sampleExchange "gone.example"]).map
        (fun run => (run.err, run.c.NoResult, run.c.bucket "NXDOMAIN", run.c.WrongOpcode.keys))
        = some (none, {"gone.example"}, ∅, ∅) := by
  decide

/-- C3: a reply with the reply code success and exactly one answer, an A record
with the expected address, does not raise the success counter when the opcode of
its header is 2: the domain is put into the bucket that the table names for the
value 2, the one for SERVFAIL. -/
theorem Check_success_rcode_lands_in_WrongOpcode :
    (worker sampleExchange "odd.example"
        = result.replied "odd.example" ⟨2, RcodeSuccess, [⟨TypeA, mainChecker.WantA⟩]⟩)
      ∧ (Check dns.RcodeToString mainChecker ["odd.example"]
          [worker sampleExchange "odd.example"]).map
        (fun run => (run.err, run.c.Okay, run.c.WrongResult, run.c.bucket "SERVFAIL"))
        = some (none, 0, ∅, {"odd.example"}) := by
  decide

/-- C4: on the empty slice the callback is invoked once, with the arguments (1, 0),
and on a slice of one domain twice, the second time with (2, 1): the count of
completed queries exceeds the total. -/
theorem Check_progress_calls :
    (Check dns.RcodeToString mainChecker [] []).map (fun run => (run.err, run.calls))
        = some (none, [(1, 0)])
      ∧ (Check dns.RcodeToString mainChecker ["ok.example"]
          [worker sampleExchange "ok.example"]).map (fun run => (run.err, run.calls))
        = some (none, [(1, 1), (2, 1)]) := by
  decide

/-- C8: for a checker whose only non-empty category is `WrongResult` with one
member, `Dump` writes the header, the member, and the remainder line with the
negative count -5. -/
theorem Dump_negative_remainder :
    Dump sortedOrder { mainChecker with WrongResult := {"other.example"} }
      = ["Wrong result (A record with wrong value):", " - other.example",
          "(and -5 more like this)"] := by
  simp [Dump, Dump.display, Dump.examples, sortedOrder, mainChecker, New, Checker.bucket]
  decide

/-! ## Instances -/

/-- An instance of C1: three distinct domains, results arriving out of order. -/
theorem Check_partition_witness :
    ∃ run, Check dns.RcodeToString (New "192.0.2.53:53" "145.237.235.240") sampleDomains
        sampleArrival = some run
      ∧ run.err = none
      ∧ run.c.Okay + run.c.WrongResult.card + run.c.NoResult.card
          + (∑ code ∈ run.c.WrongOpcode.keys, (run.c.bucket code).card)
          + run.c.Failed.card = 3
      ∧ Disjoint run.c.NoResult run.c.Failed := by
  obtain ⟨run, h1, h2⟩ := Check_partition dns.RcodeToString "192.0.2.53:53" "145.237.235.240"
    sampleExchange sampleDomains sampleArrival (by decide) (by decide) (by decide)
  have herr : run.err = none := by
    have h : (Check dns.RcodeToString (New "192.0.2.53:53" "145.237.235.240") sampleDomains
        sampleArrival).map Run.err = some none := by decide
    rw [h1] at h
    exact Option.some.inj h
  exact ⟨run, h1, herr, (h2 herr).1, (h2 herr).2.2.2.1⟩

/-- An instance of C5: with `MaxFailed = 1` and three timeouts the pass returns the
error at the second one, with two domains in `Failed`. -/
theorem Check_abort_witness :
    ∃ run, Check dns.RcodeToString strictChecker ["x1.example", "x2.example", "x3.example"]
        (["x1.example", "x2.example", "x3.example"].map (worker sampleExchange)) = some run
      ∧ run.err = some tooManyFailures
      ∧ (run.c.Failed.card : Int) = strictChecker.MaxFailed + 1 := by
  obtain ⟨run, h1, -, -, h4⟩ := Check_abort dns.RcodeToString strictChecker
    ["x1.example", "x2.example", "x3.example"]
    (["x1.example", "x2.example", "x3.example"].map (worker sampleExchange))
    (by decide) (by decide)
  have h := h4 [result.failed "x1.example" "i/o timeout"] "x2.example" "i/o timeout"
    [result.failed "x3.example" "i/o timeout"] (by decide) (by decide) (by decide)
  exact ⟨run, h1, h.2.1, h.2.2⟩

/-- An instance of C10: the sample results in arrival order and in dispatch order. -/
theorem Check_order_independent_witness :
    ∃ run run', Check dns.RcodeToString mainChecker sampleDomains sampleArrival = some run
      ∧ Check dns.RcodeToString mainChecker sampleDomains
          (sampleDomains.map (worker sampleExchange)) = some run'
      ∧ run.err = none ∧ run'.err = none ∧ run'.c = run.c := by
  obtain ⟨run, run', h1, h2, -, h4⟩ := Check_order_independent dns.RcodeToString mainChecker
    sampleExchange sampleDomains sampleArrival (sampleDomains.map (worker sampleExchange))
    (by decide) (by decide) (List.Perm.refl _)
  have herr : run.err = none := by
    have h : (Check dns.RcodeToString mainChecker sampleDomains sampleArrival).map Run.err
        = some none := by decide
    rw [h1] at h
    exact Option.some.inj h
  exact ⟨run, run', h1, h2, herr, (h4 herr).1, (h4 herr).2⟩

/-- The claim C6 fails where the success counter wraps around: in the state
`wrapChecker`, whose `Failed` is disjoint from the other, empty category sets, the
retry pass returns no error, the domain resolves as expected, and the counter goes
from its largest value to zero, so it has decreased and the number of domains
accounted for has dropped from `2 ^ 64` to zero. -/
theorem RetryFailed_Okay_wraps :
    wrapChecker.Okay = 2 ^ 64 - 1
      ∧ wrapChecker.Failed = {"ok.example"}
      ∧ wrapChecker.WrongResult = ∅ ∧ wrapChecker.NoResult = ∅ ∧ wrapChecker.WrongOpcode = ∅
      ∧ wrapChecker.total = 2 ^ 64
      ∧ (RetryFailed dns.RcodeToString sortedOrder sampleNet wrapChecker).map
          (fun run => (run.err, run.c.Okay, run.c.total, run.c.Failed))
        = some (none, 0, 0, ∅) := by
  have hs : sortedOrder wrapChecker.Failed = ["ok.example"] := by
    simp [sortedOrder, wrapChecker]
  refine ⟨by decide, by decide, by decide, by decide, by decide, by decide, ?_⟩
  simp only [RetryFailed, hs]
  decide

/-- An instance of C6: the one failed domain fails again in the retry pass. -/
theorem RetryFailed_reclassifies_witness :
    ∃ run, RetryFailed dns.RcodeToString sortedOrder sampleNet retryChecker = some run
      ∧ run.err = none ∧ run.c.Failed ⊆ retryChecker.Failed
      ∧ run.c.total = retryChecker.total := by
  obtain ⟨run, h1, h2⟩ := RetryFailed_reclassifies dns.RcodeToString sortedOrder sampleNet
    retryChecker (by decide)
    (fun s => ⟨Finset.sort_nodup _ _, fun x => Finset.mem_sort _⟩)
    (fun l => List.reverse_perm l)
    ⟨by decide, by decide, fun code => by
      simp [retryChecker, mainChecker, New, Checker.bucket]⟩
    (by decide)
  have herr : run.err = none := by
    have hs : sortedOrder retryChecker.Failed = ["slow.example"] := by
      simp [sortedOrder, retryChecker]
    have h : (RetryFailed dns.RcodeToString sortedOrder sampleNet retryChecker).map Run.err
        = some none := by
      simp only [RetryFailed, hs]
      decide
    rw [h1] at h
    exact Option.some.inj h
  exact ⟨run, h1, herr, (h2 herr).1, (h2 herr).2.2.2.2.2.2.2⟩

/-- An instance of C7: the checker of `main` on the sample domains. -/
theorem CheckRetry_passes_witness :
    ∃ k out, k ≤ 3
      ∧ CheckRetry dns.RcodeToString sortedOrder (fun _ => sampleNet) mainChecker
          sampleDomains = some out
      ∧ passes dns.RcodeToString sortedOrder (fun _ => sampleNet) mainChecker sampleDomains k
          = some out
      ∧ (out.err ≠ none ∨ out.c.Failed = ∅ ∨ k = 3) := by
  obtain ⟨k, out, h1, h2, h3, -, h5, -⟩ := CheckRetry_passes dns.RcodeToString sortedOrder
    (fun _ => sampleNet) mainChecker sampleDomains (by decide)
    (fun s => ⟨Finset.sort_nodup _ _, fun x => Finset.mem_sort _⟩)
    (fun _ l => List.reverse_perm l)
  exact ⟨k, out, h1, h2, h3, h5⟩

/-- An instance of C9: with one permit and two workers, after worker 0 has acquired
and worker 1 has been turned away twice, the next turn of worker 0 issues the query
while it holds the permit; and after ten further rounds in which worker 0 and then
worker 1 get a turn, both have acquired, queried, delivered, signalled and released
once, and no permit is held. -/
theorem Sem.inFlight_le_cap_witness :
    Sem.inFlight (Sem.exec 1 (Sem.init 2) [0, 1, 1]) ≤ 1
      ∧ Sem.holds ((Sem.exec 1 (Sem.init 2) [0, 1, 1]).pcs.getD 0 0) = true
      ∧ Sem.holds ((Sem.step 1 (Sem.exec 1 (Sem.init 2) [0, 1, 1]) 0).pcs.getD 0 0) = true
      ∧ (∀ i < 2,
          Sem.events (Sem.exec 1 (Sem.init 2) ([0, 1, 1] ++ (List.replicate 10 [0, 1]).flatten)) i
            = [Sem.Event.acquire, Sem.Event.query, Sem.Event.deliver, Sem.Event.signal,
                Sem.Event.release])
      ∧ (∀ i < 2,
          (Sem.events
            (Sem.exec 1 (Sem.init 2) ([0, 1, 1] ++ (List.replicate 10 [0, 1]).flatten)) i).count
              Sem.Event.release = 1)
      ∧ Sem.inFlight
          (Sem.exec 1 (Sem.init 2) ([0, 1, 1] ++ (List.replicate 10 [0, 1]).flatten)) = 0 :=
  ⟨(Sem.inFlight_le_cap 1 2 [0, 1, 1]).1,
    ((Sem.inFlight_le_cap 1 2 [0, 1, 1]).2.2.2.1 0 (by decide)).1,
    ((Sem.inFlight_le_cap 1 2 [0, 1, 1]).2.2.2.1 0 (by decide)).2,
    (Sem.inFlight_le_cap 1 2 [0, 1, 1]).2.2.2.2.2 (by decide) (List.replicate 10 [0, 1])
      (by decide) (by decide)⟩

end dnscheck
